import Mathlib

/-!
# Verification of the mine-kb RAG pipeline against its specification

This file gives a shallow embedding, in Lean 4, of the parts of the
`mine-kb` Rust code base that the specification's claims are about:

* the document model (`models/document.rs`): MIME detection, file-size
  validation, chunk construction and its validation rules;
* the document processor (`services/document_processor.rs`):
  sentence splitting, greedy chunking with overlap, offset accounting;
* the storage adapter (`services/seekdb_adapter.rs`): upsert semantics of
  `save_project` / `save_conversation`, vector-document upserts keyed by
  `(document_id, chunk_index)`, `similarity_search` post-processing;
* the conversation service (`services/conversation_service.rs`):
  `add_message`, `delete_message`, `clear_conversation_messages` and the
  denormalised `message_count`;
* the embedding client (`services/dashscope_embedding_service.rs`):
  batch splitting and `text_index` re-ordering;
* the LLM stream client (`services/llm_client.rs`): the SSE event loop of
  `handle_streaming_response`;
* the chat command (`commands/chat.rs`): which retrieval path
  `send_message` invokes and how its results flow to the prompt/sources.

Strings are modelled as lists of characters (`Str := List Char`), byte
lengths as character counts (exact for the ASCII inputs used in all
witnesses and counterexamples), `f64` scalars as rationals `ℚ` (the claims
proved about them are order/sign facts that hold for any ordered field and
involve no rounding), and external effects (the vector engine, the
embedding provider, the JSON parser, the HTTP byte stream) as explicit
oracle arguments, so that every definition is executable.
-/

namespace MineKB

/-- Strings of the Rust source are modelled as lists of characters. -/
abbrev Str := List Char

/-- ASCII whitespace recognition used by `str::trim`, `split_whitespace`
and `char::is_whitespace` on the inputs considered here. -/
def isWs (c : Char) : Bool :=
  c = ' ' || c = '\t' || c = '\n' || c = '\r'

/-- `str::trim_start`. -/
def trimStart (s : Str) : Str := s.dropWhile isWs

/-- `str::trim_end`. -/
def trimEnd (s : Str) : Str := (s.reverse.dropWhile isWs).reverse

/-- `str::trim`. -/
def trim (s : Str) : Str := trimEnd (trimStart s)

/-- Split a list on a separator character (`str::split(c)`);
always returns at least one (possibly empty) field. -/
def splitOnChar (sep : Char) : Str → List Str
  | [] => [[]]
  | c :: cs =>
    let rest := splitOnChar sep cs
    if c = sep then [] :: rest
    else match rest with
      | [] => [[c]]
      | r :: rs => (c :: r) :: rs

/-- `str::split_whitespace`: maximal runs of non-whitespace characters. -/
def splitWhitespace : Str → List Str
  | [] => []
  | c :: cs =>
    if isWs c then splitWhitespace cs
    else
      match splitWhitespace cs with
      | [] => [[c]]
      | w :: ws =>
        match cs with
        | [] => [[c]]
        | d :: _ => if isWs d then [c] :: w :: ws else (c :: w) :: ws

/-- Join a list of words with a single separator character
(`Vec::join(" ")` / `join("\n")`). -/
def joinChar (sep : Char) : List Str → Str
  | [] => []
  | [w] => w
  | w :: ws => w ++ sep :: joinChar sep ws

/-- ASCII lower-casing (`str::to_lowercase` on ASCII). -/
def toLowerStr (s : Str) : Str := s.map Char.toLower

/-- Decidable equality of `Except` results, for evaluating the embedded
fallible functions on concrete inputs. -/
instance instDecidableEqExcept {ε α : Type} [DecidableEq ε] [DecidableEq α] :
    DecidableEq (Except ε α)
  | .ok a, .ok b =>
    if h : a = b then .isTrue (by rw [h]) else
      .isFalse (by intro e; cases e; exact h rfl)
  | .error a, .error b =>
    if h : a = b then .isTrue (by rw [h]) else
      .isFalse (by intro e; cases e; exact h rfl)
  | .ok _, .error _ => .isFalse (by intro e; cases e)
  | .error _, .ok _ => .isFalse (by intro e; cases e)

end MineKB

namespace MineKB.DocModel

/-!
## `models/document.rs`

`DocumentValidationError`, `Document::new`'s validation chain
(`validate_filename`, `validate_file_size`, `detect_mime_type`) and
`DocumentChunk::new`'s validation chain (`validate_content`,
`validate_offsets`, `validate_token_count`, `estimate_token_count`),
plus `get_supported_extensions` / `is_supported_file` from
`services/document_processor.rs`.
-/

/-- `DocumentValidationError` from `models/document.rs`. -/
inductive DocumentValidationError where
  | invalidFilePath
  | emptyFilename
  | filenameTooLong
  | fileTooLarge
  | emptyFile
  | unsupportedFileType (ext : Str)
  | emptyChunkContent
  | invalidOffsets
  | invalidTokenCount
  deriving Repr, DecidableEq

/-- `Path::extension()` of a file name: the part after the last `.`,
provided that dot is not the leading character (hidden files such as
`.gitignore` have no extension); `none` when there is no dot. -/
def extensionOf (name : Str) : Option Str :=
  let rev := name.reverse
  let extRev := rev.takeWhile (· ≠ '.')
  match rev.dropWhile (· ≠ '.') with
  | '.' :: stemRev => if stemRev = [] then none else some extRev.reverse
  | _ => none

/-- `Document::validate_filename`. -/
def validateFilename (filename : Str) : Except DocumentValidationError Unit :=
  if (trim filename) = [] then .error .emptyFilename
  else if filename.length > 255 then .error .filenameTooLong
  else .ok ()

/-- `MAX_FILE_SIZE`: 50 MiB, shared by `Document::validate_file_size`
and `DocumentProcessor::validate_file`. -/
def maxFileSize : Nat := 50 * 1024 * 1024

/-- `Document::validate_file_size`: rejects sizes above 50 MiB and the
empty file. -/
def validateFileSize (size : Nat) : Except DocumentValidationError Unit :=
  if size > maxFileSize then .error .fileTooLarge
  else if size = 0 then .error .emptyFile
  else .ok ()

/-- `Document::detect_mime_type`: lower-cases the extension (empty when
absent) and maps `txt`, `md`/`markdown`, `pdf` to their MIME types;
every other extension is an `UnsupportedFileType` error. -/
def detectMimeType (filename : Str) : Except DocumentValidationError Str :=
  let ext := toLowerStr ((extensionOf filename).getD [])
  if ext = "txt".toList then .ok "text/plain".toList
  else if ext = "md".toList ∨ ext = "markdown".toList then .ok "text/markdown".toList
  else if ext = "pdf".toList then .ok "application/pdf".toList
  else .error (.unsupportedFileType ext)

/-- The validation chain of `Document::new` (the parts that decide
acceptance: filename, size, MIME detection), returning the detected
MIME type on success. -/
def documentNew (filename : Str) (fileSize : Nat) :
    Except DocumentValidationError Str := do
  validateFilename filename
  validateFileSize fileSize
  detectMimeType filename

/-- `DocumentProcessor::get_supported_extensions`. -/
def getSupportedExtensions : List Str :=
  ["txt".toList, "md".toList, "markdown".toList, "pdf".toList,
   "doc".toList, "docx".toList, "rtf".toList]

/-- `DocumentProcessor::is_supported_file` (on a plain file name). -/
def isSupportedFile (filePath : Str) : Bool :=
  match extensionOf filePath with
  | some ext => getSupportedExtensions.contains (toLowerStr ext)
  | none => false

/-- `DocumentChunk::estimate_token_count`: `ceil(chars / 4)`
(`(len as f32 / 4.0).ceil() as u32`; exact in `f32` for the lengths
admitted by the validators). -/
def estimateTokenCount (content : Str) : Nat :=
  (content.length + 3) / 4

/-- A `DocumentChunk` (identity and timestamp fields omitted). -/
structure DocumentChunk where
  chunkIndex : Nat
  content : Str
  tokenCount : Nat
  startOffset : Nat
  endOffset : Nat
  deriving Repr, DecidableEq

/-- `DocumentChunk::new`: validates content non-empty after trimming,
`start < end`, and estimated token count within `[10, 1000]`. -/
def DocumentChunk.new (chunkIndex : Nat) (content : Str)
    (startOffset endOffset : Nat) :
    Except DocumentValidationError DocumentChunk :=
  if trim content = [] then .error .emptyChunkContent
  else if startOffset ≥ endOffset then .error .invalidOffsets
  else
    let tc := estimateTokenCount content
    if tc < 10 ∨ tc > 1000 then .error .invalidTokenCount
    else .ok ⟨chunkIndex, content, tc, startOffset, endOffset⟩

end MineKB.DocModel

namespace MineKB.DocProcessor

/-!
## `services/document_processor.rs`

`split_into_sentences` (boundary scan plus the line-grouping fallback),
`create_overlap_content`, `calculate_overlap_start`, `create_chunks`.
`estimate_token_count` agrees with `DocModel.estimateTokenCount`
(`ceil(len/4)`).
-/

open MineKB.DocModel

/-- The character scan of `split_into_sentences`: accumulate characters,
and at `.`/`!`/`?` emit the trimmed accumulator when it is non-empty and
longer than 3; returns the emitted sentences and the final accumulator. -/
def sentenceScan (cur : Str) : Str → List Str × Str
  | [] => ([], cur)
  | c :: cs =>
    let cur' := cur ++ [c]
    if c = '.' ∨ c = '!' ∨ c = '?' then
      let t := trim cur'
      if t ≠ [] ∧ t.length > 3 then
        let (ss, rest) := sentenceScan [] cs
        (t :: ss, rest)
      else sentenceScan cur' cs
    else sentenceScan cur' cs

/-- `MIN_CHUNK_CHARS` of the line-grouping fallback. -/
def minChunkChars : Nat := 40

/-- The grouping loop of the fallback: accumulate trimmed lines
(joined by `\n`) until the group reaches `MIN_CHUNK_CHARS`, then emit. -/
def groupScan (group : Str) (acc : List Str) : List Str → List Str × Str
  | [] => (acc, group)
  | l :: ls =>
    let group' := if group = [] then trim l else group ++ '\n' :: trim l
    if group'.length ≥ minChunkChars then groupScan [] (acc ++ [group']) ls
    else groupScan group' acc ls

/-- The fallback of `split_into_sentences`: non-empty lines grouped to at
least `MIN_CHUNK_CHARS`; a too-small final group is appended to the
previous sentence when one exists. -/
def lineGroupFallback (text : Str) : List Str :=
  let lines := (splitOnChar '\n' text).filter (fun l => trim l ≠ [])
  if lines = [] then []
  else
    let (ss, group) := groupScan [] [] lines
    if group = [] then ss
    else if group.length < minChunkChars ∧ ss ≠ [] then
      ss.dropLast ++ [ss.getLastD [] ++ '\n' :: group]
    else ss ++ [group]

/-- `split_into_sentences`. -/
def splitIntoSentences (text : Str) : List Str :=
  let (ss, cur) := sentenceScan [] text
  let ss := ss ++ (if trim cur ≠ [] then [trim cur] else [])
  if ss = [] then lineGroupFallback text else ss

/-- `create_overlap_content`: last `chunk_overlap` whitespace-words of the
previous chunk, joined by spaces, prepended to the new sentence. -/
def createOverlapContent (chunkOverlap : Nat) (previousChunk newSentence : Str) : Str :=
  let words := splitWhitespace previousChunk
  if words.length > chunkOverlap then
    joinChar ' ' (words.drop (words.length - chunkOverlap)) ++ ' ' :: newSentence
  else newSentence

/-- `calculate_overlap_start`: `current_offset - overlap_content.len()`
clamped at 0. -/
def calculateOverlapStart (currentOffset : Nat) (overlapContent : Str) : Nat :=
  if currentOffset ≥ overlapContent.length then currentOffset - overlapContent.length
  else 0

/-- The per-sentence loop state of `create_chunks`. -/
structure ChunkState where
  chunks : List DocumentChunk
  currentOffset : Nat
  chunkIndex : Nat
  currentChunk : Str
  currentChunkStart : Nat
  deriving Repr

/-- One iteration of the sentence loop of `create_chunks`. -/
def chunkStep (maxChunkSize chunkOverlap : Nat) (st : ChunkState)
    (sentence : Str) : ChunkState :=
  let sentenceTokens := estimateTokenCount sentence
  let currentTokens := estimateTokenCount st.currentChunk
  let st' :=
    if currentTokens + sentenceTokens > maxChunkSize ∧ st.currentChunk ≠ [] then
      let chunkEnd := st.currentOffset
      let pushed :=
        match DocumentChunk.new st.chunkIndex (trim st.currentChunk)
            st.currentChunkStart chunkEnd with
        | .ok c => { st with chunks := st.chunks ++ [c], chunkIndex := st.chunkIndex + 1 }
        | .error _ => st
      let newChunk := createOverlapContent chunkOverlap st.currentChunk sentence
      { pushed with
          currentChunk := newChunk,
          currentChunkStart := calculateOverlapStart st.currentOffset newChunk }
    else
      let start := if st.currentChunk = [] then st.currentOffset else st.currentChunkStart
      { st with currentChunk := st.currentChunk ++ sentence ++ [' '],
                currentChunkStart := start }
  { st' with currentOffset := st.currentOffset + sentence.length + 1 }

/-- The tail of `create_chunks`: emit the final chunk from any remaining
content (`if !current_chunk.trim().is_empty()`), appended when its
validation succeeds. -/
def finalChunks (st : ChunkState) : List DocumentChunk :=
  if trim st.currentChunk ≠ [] then
    match DocumentChunk.new st.chunkIndex (trim st.currentChunk)
        st.currentChunkStart st.currentOffset with
    | .ok c => st.chunks ++ [c]
    | .error _ => st.chunks
  else st.chunks

/-- `create_chunks`: run the sentence loop, then emit the final chunk from
any remaining content; fails when nothing valid was produced. -/
def createChunks (maxChunkSize chunkOverlap : Nat) (content : Str) :
    Except Str (List DocumentChunk) :=
  let sentences := splitIntoSentences content
  let st := sentences.foldl (chunkStep maxChunkSize chunkOverlap) ⟨[], 0, 0, [], 0⟩
  let final := finalChunks st
  if final = [] then .error "No valid chunks could be created from document".toList
  else .ok final

/-- `DocumentProcessor::new` uses `max_chunk_size = 1000`. -/
def defaultMaxChunkSize : Nat := 1000

/-- `DocumentProcessor::new` uses `chunk_overlap = 100`. -/
def defaultChunkOverlap : Nat := 100

end MineKB.DocProcessor

namespace MineKB.SeekDb

/-!
## `services/seekdb_adapter.rs`

Row types and the operations the claims need. Timestamps are kept as the
RFC3339 strings the adapter itself stores; `f64` scalars are `ℚ`.
Columns that no claim mentions (embeddings inside rows that the queries
do not return, log-only data) are carried where the source carries them
and omitted where the source never reads them.
-/

/-- A typed scalar of a DB-bridge row (`serde_json::Value` as produced by
the bridge: strings, numbers, null). -/
inductive SqlValue where
  | str (s : Str)
  | num (q : ℚ)
  | null
  deriving Repr, DecidableEq

/-- `Value::as_str`. -/
def SqlValue.asStr : SqlValue → Option Str
  | .str s => some s
  | _ => none

/-- `Value::as_f64` (numbers only). -/
def SqlValue.asF64 : SqlValue → Option ℚ
  | .num q => some q
  | _ => none

/-- `Value::as_i64` (integral numbers only). -/
def SqlValue.asI64 : SqlValue → Option Int
  | .num q => if q.den = 1 then some q.num else none
  | _ => none

/-- `f64::MAX`, the default distance when column 6 is not a number. -/
def f64Max : ℚ := 2 ^ 1024 - 2 ^ 971

/-- `VectorDocument` (metadata as the parsed string map). -/
structure VectorDocument where
  id : Str
  projectId : Str
  documentId : Str
  chunkIndex : Int
  content : Str
  embedding : List ℚ
  metadata : List (Str × Str)
  deriving Repr, DecidableEq

/-- `SearchResult`. -/
structure SearchResult where
  document : VectorDocument
  similarity : ℚ
  deriving Repr, DecidableEq

/-- Row post-processing of `similarity_search`: rows with fewer than 7
columns are skipped; column 6 is the L2 distance (`f64::MAX` when not a
number); similarity is `1/(1+distance)` for positive distance and `1.0`
otherwise; rows below the threshold are dropped. `parseMeta` is the
external JSON parser for the metadata column (`unwrap_or_default`). -/
def similarityRow (parseMeta : Str → Option (List (Str × Str)))
    (threshold : ℚ) (row : List SqlValue) : Option SearchResult :=
  if row.length < 7 then none
  else
    let id := ((row.getD 0 .null).asStr).getD []
    let projectId := ((row.getD 1 .null).asStr).getD []
    let documentId := ((row.getD 2 .null).asStr).getD []
    let chunkIndex := ((row.getD 3 .null).asI64).getD 0
    let content := ((row.getD 4 .null).asStr).getD []
    let metadataStr := ((row.getD 5 .null).asStr).getD "\x7b\x7d".toList
    let metadata := (parseMeta metadataStr).getD []
    let distance := ((row.getD 6 .null).asF64).getD f64Max
    let similarity := if distance > 0 then 1 / (1 + distance) else 1
    if similarity ≥ threshold then
      some ⟨⟨id, projectId, documentId, chunkIndex, content, [], metadata⟩, similarity⟩
    else none

/-- `similarity_search` given the rows the engine query returned
(`ORDER BY l2_distance … APPROXIMATE LIMIT limit*2`, already filtered by
`project_id` server-side): parse, threshold-filter, truncate to `limit`. -/
def similaritySearch (parseMeta : Str → Option (List (Str × Str)))
    (rows : List (List SqlValue)) (limit : Nat) (threshold : ℚ) :
    List SearchResult :=
  (rows.filterMap (similarityRow parseMeta threshold)).take limit

/-- `Project` (`models/project.rs`), with `status` as its display string
and timestamps as the RFC3339 strings `save_project` binds. -/
structure Project where
  id : Str
  name : Str
  description : Option Str
  status : Str
  documentCount : Nat
  createdAt : Str
  updatedAt : Str
  deriving Repr, DecidableEq

/-- A persisted `projects` row. -/
structure ProjectRow where
  id : Str
  name : Str
  description : Str
  status : Str
  documentCount : Nat
  createdAt : Str
  updatedAt : Str
  deriving Repr, DecidableEq

/-- `Conversation` (`models/conversation.rs`) as bound by
`save_conversation`. -/
structure Conversation where
  id : Str
  projectId : Str
  title : Str
  createdAt : Str
  updatedAt : Str
  messageCount : Nat
  deriving Repr, DecidableEq

/-- A persisted `conversations` row. -/
structure ConversationRow where
  id : Str
  projectId : Str
  title : Str
  createdAt : Str
  updatedAt : Str
  messageCount : Nat
  deriving Repr, DecidableEq

/-- A persisted `messages` row. -/
structure MessageRow where
  id : Str
  conversationId : Str
  role : Str
  content : Str
  createdAt : Str
  sources : Option Str
  deriving Repr, DecidableEq

/-- The four tables of the schema. -/
structure Db where
  projects : List ProjectRow
  conversations : List ConversationRow
  messages : List MessageRow
  vectorDocuments : List VectorDocument
  deriving Repr, DecidableEq

/-- `save_project`: `INSERT … ON DUPLICATE KEY UPDATE name, description,
status, document_count, updated_at` — on conflict the existing row is
updated in place (`created_at` untouched); otherwise a new row is
inserted. No other table is touched. -/
def saveProject (db : Db) (p : Project) : Db :=
  if db.projects.any (fun row => row.id = p.id) then
    { db with projects := db.projects.map (fun row =>
        if row.id = p.id then
          { row with name := p.name, description := p.description.getD [],
                     status := p.status, documentCount := p.documentCount,
                     updatedAt := p.updatedAt }
        else row) }
  else
    { db with projects := db.projects ++
        [⟨p.id, p.name, p.description.getD [], p.status, p.documentCount,
          p.createdAt, p.updatedAt⟩] }

/-- `save_conversation`: `INSERT … ON DUPLICATE KEY UPDATE title,
updated_at, message_count` — on conflict the existing row is updated in
place (`created_at` and `project_id` untouched); otherwise a new row is
inserted. No other table is touched. -/
def saveConversation (db : Db) (c : Conversation) : Db :=
  if db.conversations.any (fun row => row.id = c.id) then
    { db with conversations := db.conversations.map (fun row =>
        if row.id = c.id then
          { row with title := c.title, updatedAt := c.updatedAt,
                     messageCount := c.messageCount }
        else row) }
  else
    { db with conversations := db.conversations ++
        [⟨c.id, c.projectId, c.title, c.createdAt, c.updatedAt, c.messageCount⟩] }

/-- The unique keys of `vector_documents` that `ON DUPLICATE KEY UPDATE`
can collide on: the primary key `id` and `UNIQUE(document_id,
chunk_index)`. -/
def vectorConflict (r d : VectorDocument) : Prop :=
  r.id = d.id ∨ (r.documentId = d.documentId ∧ r.chunkIndex = d.chunkIndex)

instance (r d : VectorDocument) : Decidable (vectorConflict r d) := by
  unfold vectorConflict; infer_instance

/-- One `INSERT INTO vector_documents … ON DUPLICATE KEY UPDATE content,
embedding, metadata`: the first row colliding on a unique key is updated
in place, else the row is appended. -/
def upsertVectorDoc : List VectorDocument → VectorDocument → List VectorDocument
  | [], d => [d]
  | r :: rs, d =>
    if vectorConflict r d then
      { r with content := d.content, embedding := d.embedding,
               metadata := d.metadata } :: rs
    else r :: upsertVectorDoc rs d

/-- `add_documents`: the upserts of all chunks, in order (single
transaction, committed at the end). -/
def addDocuments (rows : List VectorDocument) (docs : List VectorDocument) :
    List VectorDocument :=
  docs.foldl upsertVectorDoc rows

/-- `delete_document`: `DELETE FROM vector_documents WHERE document_id = ?`. -/
def deleteDocument (rows : List VectorDocument) (documentId : Str) :
    List VectorDocument :=
  rows.filter (fun r => ¬ r.documentId = documentId)

end MineKB.SeekDb

namespace MineKB.DocService

/-!
## `services/document_service.rs` — `reprocess_document`

`reprocess_document` resets the status to `Processing` and re-runs
`process_document_async`, which processes, embeds and calls
`add_documents` on the newly produced vector documents. It never calls
`delete_document` (or any other delete) on the store first.
-/

open MineKB.SeekDb

/-- The vector-store effect of a `reprocess_document` whose processing
run produced `newDocs`: exactly `add_documents`, with no prior delete. -/
def reprocessDocument (rows : List VectorDocument)
    (newDocs : List VectorDocument) : List VectorDocument :=
  addDocuments rows newDocs

/-- Modelled from the spec (`§4.6`: "A retry must first delete existing
chunks for that document_id"): what the claim says a reprocess of
`documentId` does — delete that document's rows, then re-index. Stated
for comparison with `reprocessDocument`, the behaviour of the source. -/
def reprocessDocumentSpec (rows : List VectorDocument) (documentId : Str)
    (newDocs : List VectorDocument) : List VectorDocument :=
  addDocuments (deleteDocument rows documentId) newDocs

end MineKB.DocService

namespace MineKB.Embedding

/-!
## `services/dashscope_embedding_service.rs`

The provider (`POST …/text-embedding`) is an oracle mapping the batch of
texts to the returned items `(text_index, embedding)`. The retry wrapper
(`embed_batch_with_retry`) re-invokes the same call until success and
returns that call's value unchanged, so with a deterministic total
oracle it is the single call modelled here.
-/

/-- `slice::chunks(n)`: consecutive sub-batches of at most `n` elements
(fuel-indexed for structural recursion; the fuel `xs.length` always
suffices for `n ≥ 1`). -/
def chunksOfAux (n : Nat) : Nat → List α → List (List α)
  | 0, _ => []
  | _, [] => []
  | fuel + 1, xs => xs.take n :: chunksOfAux n fuel (xs.drop n)

/-- `slice::chunks(n)` (for `n ≥ 1`). -/
def chunksOf (n : Nat) (xs : List α) : List (List α) :=
  chunksOfAux n xs.length xs

/-- `sort_by_key(|e| e.text_index)`: a stable sort on the `text_index`
component (insertion sort with `≤`, stable like Rust's `sort_by_key`). -/
def sortByTextIndex (items : List (Nat × List ℚ)) : List (Nat × List ℚ) :=
  List.insertionSort (fun a b => a.1 ≤ b.1) items

/-- `embed_batch_internal`: call the provider, sort the returned items by
`text_index`, and keep the embeddings. -/
def embedBatchInternal (provider : List Str → List (Nat × List ℚ))
    (texts : List Str) : List (List ℚ) :=
  (sortByTextIndex (provider texts)).map Prod.snd

/-- `embed_batch_chunked`: process batches of `chunkSize` in order and
concatenate the results. -/
def embedBatchChunked (provider : List Str → List (Nat × List ℚ))
    (texts : List Str) (chunkSize : Nat) : List (List ℚ) :=
  ((chunksOf chunkSize texts).map (embedBatchInternal provider)).flatten

/-- `embed_batch`: empty input returns empty output; more than 25 texts
are processed via `embed_batch_chunked(texts, 25)`; otherwise a single
call. -/
def embedBatch (provider : List Str → List (Nat × List ℚ))
    (texts : List Str) : List (List ℚ) :=
  if texts = [] then []
  else if texts.length > 25 then embedBatchChunked provider texts 25
  else embedBatchInternal provider texts

end MineKB.Embedding

namespace MineKB.ConvModel

/-- `ContextChunk` (`models/conversation.rs`). -/
structure ContextChunk where
  documentId : Str
  filename : Str
  content : Str
  relevanceScore : ℚ
  deriving Repr, DecidableEq

end MineKB.ConvModel

namespace MineKB.LlmStream

/-!
## `services/llm_client.rs` — `handle_streaming_response`

The HTTP byte stream is a list of chunk results (`Ok` UTF-8 text or a
transport `Err`); `serde_json::from_str::<ChatResponse>` is the `parse`
oracle. The SSE loop is translated line for line: buffered line
splitting, the `data: ` prefix, the `[DONE]` and `finish_reason` inner
breaks (which leave the remaining buffer in place), the outer break on a
transport error, and the unconditional final `Complete`.
-/

open MineKB.ConvModel

/-- `StreamEvent`. -/
inductive StreamEvent where
  | token (s : Str)
  | context (chunks : List ContextChunk)
  | complete (responseId : Str)
  | error (detail : Str)
  deriving Repr, DecidableEq

/-- The first choice of a parsed streaming `ChatResponse`: its
`delta.content` and `finish_reason`. -/
structure SseChoice where
  deltaContent : Option Str
  finishReason : Option Str
  deriving Repr, DecidableEq

/-- A parsed streaming `ChatResponse` (only `choices` is read). -/
structure SseResponse where
  choices : List SseChoice
  deriving Repr, DecidableEq

/-- `buffer.find('\n')`: split at the first newline, if any. -/
def splitFirstLine (buffer : Str) : Option (Str × Str) :=
  match buffer.dropWhile (· ≠ '\n') with
  | '\n' :: rest => some (buffer.takeWhile (· ≠ '\n'), rest)
  | _ => none

/-- The body of one iteration of the inner `while let Some(line_end)`
loop, for a trimmed line: the `Token` events it yields and whether it
breaks the loop. An empty line, a non-`data:` line, a parse failure and
an empty `choices` array all yield nothing and continue; `data: [DONE]`
and a `finish_reason` of `stop`/`length` break (the latter after
yielding any token carried by the same message). -/
def lineOutcome (parse : Str → Option SseResponse) (line : Str) :
    List StreamEvent × Bool :=
  if line = [] then ([], false)
  else if "data: ".toList.isPrefixOf line then
    let jsonStr := line.drop 6
    if MineKB.trim jsonStr = "[DONE]".toList then ([], true)
    else
      match parse jsonStr with
      | some resp =>
        match resp.choices.head? with
        | some choice =>
          let tokenEvents :=
            match choice.deltaContent with
            | some content =>
              if content ≠ [] then [StreamEvent.token content] else []
            | none => []
          let finished :=
            match choice.finishReason with
            | some r => r = "stop".toList || r = "length".toList
            | none => false
          (tokenEvents, finished)
        | none => ([], false)
      | none => ([], false)
  else ([], false)

/-- The inner `while let Some(line_end)` loop: process complete lines of
the buffer via `lineOutcome`; a break leaves the rest of the buffer
unprocessed, as the source's `break` does. Returns the events and the
remaining buffer. Fuel-indexed; each iteration strictly shrinks the
buffer, so `buffer.length + 1` suffices. -/
def processLines (parse : Str → Option SseResponse) :
    Nat → Str → List StreamEvent × Str
  | 0, buffer => ([], buffer)
  | fuel + 1, buffer =>
    match splitFirstLine buffer with
    | none => ([], buffer)
    | some (line0, rest) =>
      let out := lineOutcome parse (MineKB.trim line0)
      if out.2 then (out.1, rest)
      else
        let next := processLines parse fuel rest
        (out.1 ++ next.1, next.2)

/-- The outer `while let Some(chunk_result)` loop: append each `Ok` chunk
to the buffer and process lines; on a transport `Err`, emit `Error` and
stop. -/
def streamLoop (parse : Str → Option SseResponse) (buffer : Str) :
    List (Except Str Str) → List StreamEvent
  | [] => []
  | .ok chunkStr :: rest =>
    let out := processLines parse ((buffer ++ chunkStr).length + 1) (buffer ++ chunkStr)
    out.1 ++ streamLoop parse out.2 rest
  | .error e :: _ =>
    [StreamEvent.error ("读取流式数据失败: ".toList ++ e)]

/-- `handle_streaming_response`: first a `Context` event when context
chunks are present, then the SSE loop over the byte stream, then —
unconditionally — a final `Complete(response_id)`. -/
def handleStreamingResponse (parse : Str → Option SseResponse)
    (contextChunks : List ContextChunk) (chunks : List (Except Str Str))
    (responseId : Str) : List StreamEvent :=
  (if contextChunks ≠ [] then [StreamEvent.context contextChunks] else []) ++
    streamLoop parse [] chunks ++ [StreamEvent.complete responseId]

end MineKB.LlmStream

namespace MineKB.Chat

/-!
## `services/document_service.rs` (search paths) and
`commands/chat.rs` (`send_message`, retrieval and sources)

The embedding service (`embed_text`) and the storage adapter's two
search entry points are oracles; an `AdapterSearch` value records which
adapter function is invoked and with which arguments, exactly as the
Rust call sites pass them.
-/

open MineKB.SeekDb MineKB.ConvModel

/-- A call into the storage adapter's search API, as issued by
`DocumentService`: either `similarity_search(query_vec, project_id,
limit, threshold)` or `hybrid_search(query_text, query_vec, project_id,
limit, semantic_boost)`. -/
inductive AdapterSearch where
  | similarity (queryEmbedding : List ℚ) (projectId : Option Str)
      (limit : Nat) (threshold : ℚ)
  | hybrid (queryText : Str) (queryEmbedding : List ℚ)
      (projectId : Option Str) (limit : Nat) (semanticBoost : ℚ)
  deriving DecidableEq

/-- `SimilarChunk` (`document_service.rs`). -/
structure SimilarChunk where
  documentId : Str
  filename : Option Str
  content : Str
  relevanceScore : ℚ
  deriving Repr, DecidableEq

/-- `HashMap::get("filename")` on parsed metadata. -/
def lookupMeta (metadata : List (Str × Str)) (key : Str) : Option Str :=
  (metadata.find? (fun kv => kv.1 = key)).map Prod.snd

/-- The `SearchResult → SimilarChunk` conversion shared by both search
paths of `DocumentService`. -/
def toSimilarChunk (result : SearchResult) : SimilarChunk :=
  ⟨result.document.documentId,
   lookupMeta result.document.metadata "filename".toList,
   result.document.content,
   result.similarity⟩

/-- `search_similar_chunks`: embed the query, then
`similarity_search(query_vec, Some(project_id), top_k, 0.3)` — the
pure-vector path. -/
def searchSimilarChunks (embed : Str → List ℚ)
    (engine : AdapterSearch → List SearchResult)
    (projectId query : Str) (topK : Nat) : List SimilarChunk :=
  (engine (.similarity (embed query) (some projectId) topK (3 / 10))).map
    toSimilarChunk

/-- `search_similar_chunks_hybrid`: embed the query, then
`hybrid_search(query, query_vec, Some(project_id), top_k, 0.7)`. -/
def searchSimilarChunksHybrid (embed : Str → List ℚ)
    (engine : AdapterSearch → List SearchResult)
    (projectId query : Str) (topK : Nat) : List SimilarChunk :=
  (engine (.hybrid query (embed query) (some projectId) topK (7 / 10))).map
    toSimilarChunk

/-- The `SimilarChunk → ContextChunk` conversion in `send_message`
(`chat.rs`): a missing filename becomes `"未知文档"`. -/
def toContextChunk (chunk : SimilarChunk) : ContextChunk :=
  ⟨chunk.documentId, chunk.filename.getD "未知文档".toList,
   chunk.content, chunk.relevanceScore⟩

/-- The context chunks `send_message` passes to prompt assembly and to
the sources: the results of `search_similar_chunks(project_id, content,
5)` (the pure-vector path with `top_k = 5`), mapped to `ContextChunk`. -/
def sendMessageContextChunks (embed : Str → List ℚ)
    (engine : AdapterSearch → List SearchResult)
    (projectId content : Str) : List ContextChunk :=
  (searchSimilarChunks embed engine projectId content 5).map toContextChunk

/-- Modelled from the spec (`§4.7`: "call hybrid_search(query_text=query,
query_vec=q, project_id, limit=k, semantic_boost=0.7)"): the context
chunks the claim says `send_message` uses — the hybrid-search results,
mapped the same way. Stated for comparison with
`sendMessageContextChunks`, the behaviour of the source. -/
def sendMessageContextChunksSpec (embed : Str → List ℚ)
    (engine : AdapterSearch → List SearchResult)
    (projectId content : Str) : List ContextChunk :=
  (searchSimilarChunksHybrid embed engine projectId content 5).map
    toContextChunk

/-- The `chat-stream-context` payload of `send_message`: one
`(filename, relevance_score)` pair per context chunk. -/
def sendMessageSources (contextChunks : List ContextChunk) :
    List (Str × ℚ) :=
  contextChunks.map (fun c => (c.filename, c.relevanceScore))

end MineKB.Chat

namespace MineKB.ConvService

/-!
## `services/conversation_service.rs` with the message/conversation
tables of `services/seekdb_adapter.rs`

Message and conversation ids are abstracted to `Nat` (the service only
ever round-trips freshly generated UUIDs, which always re-parse).
A `messages` row is its `(id, conversation_id)` pair and a
`conversations` row its `(id, message_count)` pair — the remaining
columns (role, content, timestamps, title, sources) are never read by
the counting logic this claim is about. `Uuid::new_v4` freshness is an
explicit hypothesis of the theorems.
-/

/-- First-match association lookup (`HashMap::get` / `WHERE id = ?`). -/
def alookup (l : List (Nat × α)) (k : Nat) : Option α :=
  (l.find? (fun p => p.1 = k)).map Prod.snd

/-- Update every row whose key matches (`UPDATE … WHERE id = ?`;
keys are unique in every state reachable here). -/
def aupdate (l : List (Nat × α)) (k : Nat) (v : α) : List (Nat × α) :=
  l.map (fun p => if p.1 = k then (k, v) else p)

/-- Insert-or-update (`HashMap::insert` / `entry().or_insert` followed by
a mutation, and the `ON DUPLICATE KEY UPDATE` upsert). -/
def aupsert (l : List (Nat × α)) (k : Nat) (v : α) : List (Nat × α) :=
  if l.any (fun p => p.1 = k) then aupdate l k v else l ++ [(k, v)]

/-- The joint state: the two persisted tables and the service's two
in-memory maps. -/
structure ConvState where
  dbMessages : List (Nat × Nat)
  dbConversations : List (Nat × Nat)
  memConversations : List (Nat × Nat)
  memMessages : List (Nat × List Nat)
  deriving Repr, DecidableEq

/-- `save_message`: `INSERT`, falling back to `UPDATE … WHERE id = ?` on
a primary-key conflict (which changes no key column, hence no row here). -/
def saveMessage (msgs : List (Nat × Nat)) (id conv : Nat) :
    List (Nat × Nat) :=
  if msgs.any (fun p => p.1 = id) then msgs else msgs ++ [(id, conv)]

/-- `delete_message_by_id`. -/
def deleteMessageById (msgs : List (Nat × Nat)) (id : Nat) :
    List (Nat × Nat) :=
  msgs.filter (fun p => ¬ p.1 = id)

/-- `delete_messages_by_conversation`. -/
def deleteMessagesByConversation (msgs : List (Nat × Nat)) (conv : Nat) :
    List (Nat × Nat) :=
  msgs.filter (fun p => ¬ p.2 = conv)

/-- `load_messages_by_conversation` (the in-memory sort by timestamp
permutes rows only and is dropped: the claim compares row counts). -/
def loadMessagesByConversation (msgs : List (Nat × Nat)) (conv : Nat) :
    List (Nat × Nat) :=
  msgs.filter (fun p => p.2 = conv)

/-- `save_conversation` on the `(id, message_count)` projection. -/
def saveConversationRow (convs : List (Nat × Nat)) (id count : Nat) :
    List (Nat × Nat) :=
  aupsert convs id count

/-- `ConversationService::add_message`: fail if the conversation is not
in memory; `save_message`; push onto the in-memory message list;
`increment_message_count`; `save_conversation`. -/
def addMessage (s : ConvState) (conv newId : Nat) : Option ConvState :=
  match alookup s.memConversations conv with
  | none => none
  | some count =>
    let msgs := (alookup s.memMessages conv).getD []
    some
      { dbMessages := saveMessage s.dbMessages newId conv
        dbConversations := saveConversationRow s.dbConversations conv (count + 1)
        memConversations := aupdate s.memConversations conv (count + 1)
        memMessages := aupsert s.memMessages conv (msgs ++ [newId]) }

/-- `ConversationService::delete_message`: fail if the conversation is
not in memory or the id is absent from its list; `retain` in memory;
`delete_message_by_id`; `update_message_count(messages.len())`;
`save_conversation`. -/
def deleteMessage (s : ConvState) (conv mid : Nat) : Option ConvState :=
  match alookup s.memConversations conv with
  | none => none
  | some _count =>
    let msgs := (alookup s.memMessages conv).getD []
    let filtered := msgs.filter (fun m => ¬ m = mid)
    if filtered.length = msgs.length then none
    else
      some
        { dbMessages := deleteMessageById s.dbMessages mid
          dbConversations := saveConversationRow s.dbConversations conv filtered.length
          memConversations := aupdate s.memConversations conv filtered.length
          memMessages := aupsert s.memMessages conv filtered }

/-- `ConversationService::clear_conversation_messages`: fail if the
conversation is not in memory; `delete_messages_by_conversation`; empty
the in-memory list; `update_message_count(0)`; `save_conversation`. -/
def clearMessages (s : ConvState) (conv : Nat) : Option ConvState :=
  match alookup s.memConversations conv with
  | none => none
  | some _count =>
    some
      { dbMessages := deleteMessagesByConversation s.dbMessages conv
        dbConversations := saveConversationRow s.dbConversations conv 0
        memConversations := aupdate s.memConversations conv 0
        memMessages := aupsert s.memMessages conv [] }

/-- A successful write to a conversation: adding a message, deleting a
message, or clearing all messages. -/
inductive WriteOp where
  | addMessage (conv newId : Nat)
  | deleteMessage (conv mid : Nat)
  | clearMessages (conv : Nat)
  deriving Repr, DecidableEq

/-- Apply a write. -/
def applyWrite (s : ConvState) : WriteOp → Option ConvState
  | .addMessage conv newId => addMessage s conv newId
  | .deleteMessage conv mid => deleteMessage s conv mid
  | .clearMessages conv => clearMessages s conv

/-- The conversation a write targets. -/
def WriteOp.conv : WriteOp → Nat
  | .addMessage conv _ => conv
  | .deleteMessage conv _ => conv
  | .clearMessages conv => conv

/-- `Uuid::new_v4` freshness: an added message's id is not already a
persisted message id. Non-add writes generate no id. -/
def freshFor (s : ConvState) : WriteOp → Prop
  | .addMessage _ newId => newId ∉ s.dbMessages.map Prod.fst
  | .deleteMessage _ _ => True
  | .clearMessages _ => True

/-- Consistency of a state: persisted message ids are unique, and for
every conversation the service knows, the persisted conversation row
carries the cached count, the cached message-id list mirrors the
persisted rows, and the cached count is its length. Established by
`create_conversation` (empty list, count 0) and by the initial
`load_from_database` when every row loads. -/
def Inv (s : ConvState) : Prop :=
  (s.dbMessages.map Prod.fst).Nodup ∧
  ∀ conv count, alookup s.memConversations conv = some count →
    alookup s.dbConversations conv = some count ∧
    (alookup s.memMessages conv).getD [] =
      (loadMessagesByConversation s.dbMessages conv).map Prod.fst ∧
    count = ((alookup s.memMessages conv).getD []).length

end MineKB.ConvService

namespace MineKB.Samples

/-!
## Concrete sample data for witnesses and counterexamples
-/

open MineKB.DocModel MineKB.DocProcessor MineKB.SeekDb MineKB.Chat
open MineKB.ConvService

/-- A text whose middle sentence candidates fail chunk validation
(too few estimated tokens), exercising the silent-skip path of
`create_chunks`. -/
def skipSampleText : Str :=
  ("This is a long sentence number one. Second one is also here! " ++
   "Third question here? And a tail without end").toList

/-- The chunks `create_chunks(max=10, overlap=2)` produces on
`skipSampleText`. -/
def skipSampleChunks : List DocumentChunk :=
  match createChunks 10 2 skipSampleText with
  | .ok cs => cs
  | .error _ => []

/-- 40 `'a'` characters: a single "sentence" with no boundary, long
enough to form one valid chunk. -/
def aText : Str := List.replicate 40 'a'

/-- The chunks `create_chunks` (default settings) produces on `aText`. -/
def aChunks : List DocumentChunk :=
  match createChunks defaultMaxChunkSize defaultChunkOverlap aText with
  | .ok cs => cs
  | .error _ => []

/-- A consistent conversation-service state: one conversation (id 10)
holding one message (id 1), with matching persisted row and caches. -/
def convState : ConvState :=
  { dbMessages := [(1, 10)]
    dbConversations := [(10, 1)]
    memConversations := [(10, 1)]
    memMessages := [(10, [1])] }

/-- A database with one project, one conversation under it, one message
under that, and one chunk row — used to watch `save_project` /
`save_conversation` leave children untouched. -/
def upsertDb : Db :=
  { projects := [⟨"p1".toList, "Old".toList, [], "Created".toList, 0,
                  "t0".toList, "t0".toList⟩]
    conversations := [⟨"c1".toList, "p1".toList, "Chat".toList,
                       "t0".toList, "t0".toList, 3⟩]
    messages := [⟨"m1".toList, "c1".toList, "User".toList, "hi".toList,
                  "t1".toList, none⟩]
    vectorDocuments := [⟨"v1".toList, "p1".toList, "d1".toList, 0,
                         "text".toList, [], []⟩] }

/-- The project value re-saved over the existing `p1` row. -/
def upsertProject : Project :=
  ⟨"p1".toList, "New name".toList, some "desc".toList, "Ready".toList, 2,
   "t9".toList, "t9".toList⟩

/-- The conversation value re-saved over the existing `c1` row. -/
def upsertConversation : Conversation :=
  ⟨"c1".toList, "p1".toList, "Renamed".toList, "t9".toList, "t9".toList, 4⟩

/-- Document id used in the reprocess counterexample. -/
def reDocId : Str := "D".toList

/-- A chunk row of document `D` at `chunk_index` 0, from an earlier
ingestion run. -/
def reRow0 : VectorDocument :=
  ⟨"a".toList, "P".toList, reDocId, 0, "old chunk zero".toList, [], []⟩

/-- A chunk row of document `D` at `chunk_index` 1, from an earlier
ingestion run. -/
def reRow1 : VectorDocument :=
  ⟨"b".toList, "P".toList, reDocId, 1, "old chunk one".toList, [], []⟩

/-- The single chunk the latest reprocess run produced (fresh row id,
`chunk_index` 0). -/
def reNew0 : VectorDocument :=
  ⟨"c".toList, "P".toList, reDocId, 0, "new chunk zero".toList, [], []⟩

/-- A search result the engine returns for hybrid requests in the
retrieval counterexample. -/
def hybridOnlyResult : SearchResult :=
  ⟨⟨"v1".toList, "P".toList, "D".toList, 0, "hello".toList, [], []⟩, 1 / 2⟩

/-- An engine that answers hybrid requests with one hit and similarity
requests with none — distinguishing the two retrieval paths. -/
def hybridOnlyEngine : AdapterSearch → List SearchResult :=
  fun req =>
    match req with
    | .hybrid _ _ _ _ _ => [hybridOnlyResult]
    | .similarity _ _ _ _ => []

/-- A trivial embedding oracle. -/
def zeroEmbed : Str → List ℚ := fun _ => []

/-- The embedding each text gets from `permProvider`. -/
def lenEmbed : Str → List ℚ := fun t => [(t.length : ℚ)]

/-- A provider that returns one item per input text, tagged with its
`text_index`, in reversed order. -/
def permProvider : List Str → List (Nat × List ℚ) :=
  fun batch => ((batch.map lenEmbed).enum).reverse

/-- A parser that fails on every payload. -/
def noParse : Str → Option MineKB.LlmStream.SseResponse := fun _ => none

/-- Three texts to embed. -/
def embedTexts : List Str := ["ab".toList, "c".toList, "def".toList]

/-- The state after adding message 2 to conversation 10 of `convState`. -/
def convStateAfter : ConvState :=
  { dbMessages := [(1, 10), (2, 10)]
    dbConversations := [(10, 2)]
    memConversations := [(10, 2)]
    memMessages := [(10, [1, 2])] }

end MineKB.Samples

namespace MineKB.Theorems

/-!
## Property bundles referenced by the claim theorems and witnesses
-/

open MineKB.SeekDb MineKB.Samples

/-- The frame property C3 asserts of an upsert over an existing id:
`save_project` rewrites only the matching `projects` row in place
(same ids, same `created_at`, same row count) and leaves the
`conversations`, `messages` and `vector_documents` tables untouched;
`save_conversation` does the same on `conversations` (also keeping each
row's `project_id`) and leaves the other tables untouched. -/
def UpsertNondestructive (db : Db) (p : Project) (c : Conversation) : Prop :=
  (saveProject db p).projects = db.projects.map (fun row =>
      if row.id = p.id then
        { row with name := p.name, description := p.description.getD [],
                   status := p.status, documentCount := p.documentCount,
                   updatedAt := p.updatedAt }
      else row) ∧
  (saveProject db p).projects.map (fun row => (row.id, row.createdAt)) =
    db.projects.map (fun row => (row.id, row.createdAt)) ∧
  (saveProject db p).conversations = db.conversations ∧
  (saveProject db p).messages = db.messages ∧
  (saveProject db p).vectorDocuments = db.vectorDocuments ∧
  (saveConversation db c).conversations = db.conversations.map (fun row =>
      if row.id = c.id then
        { row with title := c.title, updatedAt := c.updatedAt,
                   messageCount := c.messageCount }
      else row) ∧
  (saveConversation db c).conversations.map
      (fun row => (row.id, row.projectId, row.createdAt)) =
    db.conversations.map (fun row => (row.id, row.projectId, row.createdAt)) ∧
  (saveConversation db c).projects = db.projects ∧
  (saveConversation db c).messages = db.messages ∧
  (saveConversation db c).vectorDocuments = db.vectorDocuments

end MineKB.Theorems

namespace MineKB.Theorems

open MineKB.DocModel MineKB.DocProcessor MineKB.SeekDb MineKB.DocService
open MineKB.Chat MineKB.ConvModel MineKB.ConvService MineKB.Embedding
open MineKB.LlmStream MineKB.Samples

/-- C7: `doc`, `docx` and `rtf` are in the processor's supported-
extension list (and pass `is_supported_file`), yet `Document::new`'s
`detect_mime_type` rejects each of them with `UnsupportedFileType`, so
document creation fails for them; only `txt`, `md`, `markdown`, `pdf`
are accepted, and unknown extensions such as `exe` are rejected as the
claim says. -/
theorem detectMimeType_rejects_listed_extensions :
    documentNew "test.docx".toList 1024 =
      .error (.unsupportedFileType "docx".toList) ∧
    documentNew "test.doc".toList 1024 =
      .error (.unsupportedFileType "doc".toList) ∧
    documentNew "test.rtf".toList 1024 =
      .error (.unsupportedFileType "rtf".toList) ∧
    "doc".toList ∈ getSupportedExtensions ∧
    "docx".toList ∈ getSupportedExtensions ∧
    "rtf".toList ∈ getSupportedExtensions ∧
    isSupportedFile "test.docx".toList = true ∧
    documentNew "test.txt".toList 1024 = .ok "text/plain".toList ∧
    documentNew "test.md".toList 1024 = .ok "text/markdown".toList ∧
    documentNew "TEST.MARKDOWN".toList 1024 = .ok "text/markdown".toList ∧
    documentNew "test.pdf".toList 1024 = .ok "application/pdf".toList ∧
    documentNew "test.exe".toList 1024 =
      .error (.unsupportedFileType "exe".toList) :=
  ⟨rfl, rfl, rfl, by decide, by decide, by decide, by decide,
   rfl, rfl, rfl, rfl, rfl⟩

/-- C1 (counterexample): an engine that has hits for hybrid requests and
none for pure-vector requests separates the two paths — `send_message`'s
context chunks are the pure-vector results (empty here), not the
hybrid-search results the claim prescribes. -/
theorem sendMessage_not_hybrid_counterexample :
    sendMessageContextChunks zeroEmbed hybridOnlyEngine
      "P".toList "q".toList = [] ∧
    sendMessageContextChunksSpec zeroEmbed hybridOnlyEngine
      "P".toList "q".toList =
      [⟨"D".toList, "未知文档".toList, "hello".toList, 1 / 2⟩] ∧
    sendMessageContextChunks zeroEmbed hybridOnlyEngine
      "P".toList "q".toList ≠
    sendMessageContextChunksSpec zeroEmbed hybridOnlyEngine
      "P".toList "q".toList := by
  refine ⟨rfl, rfl, ?_⟩
  intro h
  simp [sendMessageContextChunks, sendMessageContextChunksSpec,
    searchSimilarChunks, searchSimilarChunksHybrid, hybridOnlyEngine,
    zeroEmbed] at h

/-- C1 (amended): for every user chat turn, after the user message is
persisted `send_message` computes the embedding of the query and obtains
context chunks by calling `similarity_search` — the pure-vector path via
`search_similar_chunks` — with that embedding, the conversation's
project id, limit 5 and threshold 0.3 (not `hybrid_search` with
semantic_boost 0.7); the chunks passed to prompt assembly and the
emitted sources are exactly the results of that search. -/
theorem sendMessage_uses_pure_vector_search
    (embed : Str → List ℚ) (engine : AdapterSearch → List SearchResult)
    (projectId content : Str) :
    sendMessageContextChunks embed engine projectId content =
      (engine (.similarity (embed content) (some projectId) 5 (3 / 10))).map
        (fun r => toContextChunk (toSimilarChunk r)) ∧
    sendMessageSources
        (sendMessageContextChunks embed engine projectId content) =
      (sendMessageContextChunks embed engine projectId content).map
        (fun c => (c.filename, c.relevanceScore)) := by
  constructor
  · simp [sendMessageContextChunks, searchSimilarChunks, List.map_map]
  · rfl

/-- Helper: a row that conflicts with no inserted chunk survives a
vector-document upsert unchanged. -/
theorem mem_upsertVectorDoc_of_not_conflict
    (rows : List VectorDocument) (d r : VectorDocument)
    (hr : r ∈ rows) (hnc : ¬ vectorConflict r d) :
    r ∈ upsertVectorDoc rows d := by
  induction rows with
  | nil => cases hr
  | cons head tail ih =>
    simp only [upsertVectorDoc]
    rcases List.mem_cons.mp hr with hr | hr
    · subst hr
      rw [if_neg hnc]
      exact List.mem_cons_self _ _
    · split
      · exact List.mem_cons_of_mem _ hr
      · exact List.mem_cons_of_mem _ (ih hr)

/-- Helper: the same, through a whole `add_documents` batch. -/
theorem mem_addDocuments_of_not_conflict
    (rows : List VectorDocument) (docs : List VectorDocument)
    (r : VectorDocument) (hr : r ∈ rows)
    (hnc : ∀ d ∈ docs, ¬ vectorConflict r d) :
    r ∈ addDocuments rows docs := by
  induction docs generalizing rows with
  | nil => exact hr
  | cons d ds ih =>
    have h1 : r ∈ upsertVectorDoc rows d :=
      mem_upsertVectorDoc_of_not_conflict rows d r hr
        (hnc d (List.mem_cons_self _ _))
    exact ih (upsertVectorDoc rows d) h1
      (fun d hd => hnc d (List.mem_cons_of_mem _ hd))

/-- C4 (counterexample): reprocessing document `D`, whose earlier run
left chunk rows at indices 0 and 1, with a latest run producing only
index 0: the store keeps the stale index-1 row, so it does not contain
exactly the chunks of the latest run; the claim's delete-first variant
would leave exactly the new chunk. -/
theorem reprocess_keeps_stale_chunks_counterexample :
    reprocessDocument [reRow0, reRow1] [reNew0] =
      [⟨"a".toList, "P".toList, reDocId, 0, "new chunk zero".toList,
        [], []⟩, reRow1] ∧
    reRow1 ∈ reprocessDocument [reRow0, reRow1] [reNew0] ∧
    reRow1.documentId = reDocId ∧ reRow1.chunkIndex = 1 ∧
    (∀ d ∈ [reNew0], ¬ d.chunkIndex = 1) ∧
    reprocessDocumentSpec [reRow0, reRow1] reDocId [reNew0] = [reNew0] ∧
    reprocessDocument [reRow0, reRow1] [reNew0] ≠
      reprocessDocumentSpec [reRow0, reRow1] reDocId [reNew0] := by
  refine ⟨by decide, by decide, by decide, by decide, by decide,
    by decide, by decide⟩

/-- C4 (amended): a reprocess deletes nothing first — it is exactly
`add_documents` of the latest run's chunks, an upsert keyed by the row
id and by `(document_id, chunk_index)`; every pre-existing row that
collides with no new chunk (in particular every stale chunk of the
reprocessed document at an index the new run did not produce) survives
in the store. -/
theorem reprocess_is_upsert_without_delete
    (rows newDocs : List VectorDocument) (r : VectorDocument)
    (hr : r ∈ rows) (hnc : ∀ d ∈ newDocs, ¬ vectorConflict r d) :
    reprocessDocument rows newDocs = addDocuments rows newDocs ∧
    r ∈ reprocessDocument rows newDocs :=
  ⟨rfl, mem_addDocuments_of_not_conflict rows newDocs r hr hnc⟩

/-- Witness for C4's amended theorem at the counterexample store: the
stale index-1 row of document `D` survives the reprocess. -/
theorem reprocess_is_upsert_without_delete_witness :
    reprocessDocument [reRow0, reRow1] [reNew0] =
      addDocuments [reRow0, reRow1] [reNew0] ∧
    reRow1 ∈ reprocessDocument [reRow0, reRow1] [reNew0] :=
  reprocess_is_upsert_without_delete [reRow0, reRow1] [reNew0] reRow1
    (by decide) (by decide)

end MineKB.Theorems

namespace MineKB.Theorems

open MineKB.SeekDb MineKB.Samples

/-- C3: for a project and a conversation whose ids already exist,
`save_project` / `save_conversation` update the existing parent row in
place and delete or modify no child row. -/
theorem saveProject_saveConversation_nondestructive
    (db : Db) (p : Project) (c : Conversation)
    (hp : db.projects.any (fun row => row.id = p.id) = true)
    (hc : db.conversations.any (fun row => row.id = c.id) = true) :
    UpsertNondestructive db p c := by
  have e1 : saveProject db p =
      { db with projects := db.projects.map (fun row =>
          if row.id = p.id then
            { row with name := p.name, description := p.description.getD [],
                       status := p.status, documentCount := p.documentCount,
                       updatedAt := p.updatedAt }
          else row) } := by
    unfold saveProject
    rw [hp]
    rfl
  have e2 : saveConversation db c =
      { db with conversations := db.conversations.map (fun row =>
          if row.id = c.id then
            { row with title := c.title, updatedAt := c.updatedAt,
                       messageCount := c.messageCount }
          else row) } := by
    unfold saveConversation
    rw [hc]
    rfl
  unfold UpsertNondestructive
  rw [e1, e2]
  refine ⟨rfl, ?_, rfl, rfl, rfl, rfl, ?_, rfl, rfl, rfl⟩
  · show List.map _ (List.map _ _) = _
    rw [List.map_map]
    refine List.map_congr_left (fun row _ => ?_)
    simp only [Function.comp_apply]
    split <;> rfl
  · show List.map _ (List.map _ _) = _
    rw [List.map_map]
    refine List.map_congr_left (fun row _ => ?_)
    simp only [Function.comp_apply]
    split <;> rfl

/-- Witness for C3 at a concrete database holding one project with a
conversation, a message and a chunk row under it. -/
theorem saveProject_saveConversation_nondestructive_witness :
    UpsertNondestructive upsertDb upsertProject upsertConversation :=
  saveProject_saveConversation_nondestructive upsertDb upsertProject
    upsertConversation (by decide) (by decide)

end MineKB.Theorems

namespace MineKB.Theorems

open MineKB.SeekDb

/-- Helper: the similarity formula of `similarity_search` —
`1/(1+distance)` for positive distance, `1.0` otherwise — always lies
in `(0, 1]`. -/
theorem simFormula_bounds (d : ℚ) :
    0 < (if d > 0 then 1 / (1 + d) else 1) ∧
    (if d > 0 then 1 / (1 + d) else 1) ≤ 1 := by
  split
  next hd =>
    have h1 : (0 : ℚ) < 1 + d := by linarith
    exact ⟨one_div_pos.mpr h1, by rw [div_le_one h1]; linarith⟩
  next hd => exact ⟨one_pos, le_refl 1⟩

/-- C10: for every metadata parser, row set, limit and threshold,
`similarity_search` returns at most `limit` results, and every returned
result's similarity lies in `(0, 1]` and is at least the threshold,
similarity being `1/(1+distance)` for a positive L2 distance and `1.0`
when the distance is zero or negative. -/
theorem similaritySearch_bounds
    (parseMeta : Str → Option (List (Str × Str)))
    (rows : List (List SqlValue)) (limit : Nat) (threshold : ℚ) :
    (similaritySearch parseMeta rows limit threshold).length ≤ limit ∧
    ∀ r ∈ similaritySearch parseMeta rows limit threshold,
      threshold ≤ r.similarity ∧ 0 < r.similarity ∧ r.similarity ≤ 1 := by
  constructor
  · exact List.length_take_le _ _
  · intro r hr
    have hr' : r ∈ rows.filterMap (similarityRow parseMeta threshold) :=
      List.mem_of_mem_take hr
    obtain ⟨row, _, hrow⟩ := List.mem_filterMap.mp hr'
    simp only [similarityRow] at hrow
    split at hrow
    · cases hrow
    · set d : ℚ := ((row.getD 6 .null).asF64).getD f64Max with hd
      set sim : ℚ := if d > 0 then 1 / (1 + d) else 1 with hsim
      split at hrow
      next hge =>
        cases hrow
        exact ⟨hge, (simFormula_bounds d).1, (simFormula_bounds d).2⟩
      next => cases hrow

end MineKB.Theorems

namespace MineKB.Theorems

open MineKB.DocModel MineKB.DocProcessor MineKB.Samples

/-- Helper: a successful `DocumentChunk::new` returns the given index and
offsets, and its validation guarantees `start < end`. -/
theorem documentChunk_new_ok {i : Nat} {c : Str} {s e : Nat}
    {ch : DocumentChunk} (h : DocumentChunk.new i c s e = .ok ch) :
    ch.chunkIndex = i ∧ ch.startOffset = s ∧ ch.endOffset = e ∧ s < e := by
  unfold DocumentChunk.new at h
  split at h
  · cases h
  · split at h
    next h2 =>
      cases h
    next h2 =>
      dsimp only at h
      split at h
      · cases h
      · cases h
        exact ⟨rfl, rfl, rfl, by omega⟩

/-- Helper: one step of the chunk loop either leaves the accumulated
chunks and index unchanged (the skip path included), or appends exactly
one validated chunk and increments the index. -/
theorem chunkStep_chunks (m o : Nat) (st : ChunkState) (sentence : Str) :
    ((chunkStep m o st sentence).chunks = st.chunks ∧
     (chunkStep m o st sentence).chunkIndex = st.chunkIndex) ∨
    (∃ ch, DocumentChunk.new st.chunkIndex (trim st.currentChunk)
        st.currentChunkStart st.currentOffset = .ok ch ∧
      (chunkStep m o st sentence).chunks = st.chunks ++ [ch] ∧
      (chunkStep m o st sentence).chunkIndex = st.chunkIndex + 1) := by
  unfold chunkStep
  dsimp only
  split
  · split
    next ch hok => exact .inr ⟨ch, hok, rfl, rfl⟩
    next => exact .inl ⟨rfl, rfl⟩
  · exact .inl ⟨rfl, rfl⟩

/-- Helper: the chunk-loop invariant — the running index equals the
number of emitted chunks, the emitted indices are `0, …, count-1` in
order, and every emitted chunk has `start < end` — is preserved by each
step. -/
theorem chunkStep_inv (m o : Nat) (st : ChunkState) (sentence : Str)
    (h1 : st.chunkIndex = st.chunks.length)
    (h2 : st.chunks.map (fun c => c.chunkIndex) = List.range st.chunks.length)
    (h3 : ∀ c ∈ st.chunks, c.startOffset < c.endOffset) :
    (chunkStep m o st sentence).chunkIndex =
      (chunkStep m o st sentence).chunks.length ∧
    (chunkStep m o st sentence).chunks.map (fun c => c.chunkIndex) =
      List.range (chunkStep m o st sentence).chunks.length ∧
    ∀ c ∈ (chunkStep m o st sentence).chunks,
      c.startOffset < c.endOffset := by
  rcases chunkStep_chunks m o st sentence with ⟨e1, e2⟩ | ⟨ch, hok, e1, e2⟩
  · rw [e1, e2]
    exact ⟨h1, h2, h3⟩
  · obtain ⟨hidx, hs, he, hlt⟩ := documentChunk_new_ok hok
    rw [e1, e2]
    refine ⟨by simp [h1], ?_, ?_⟩
    · rw [List.map_append, h2, List.length_append]
      simp only [List.map_cons, List.map_nil, hidx, h1, List.length_cons,
        List.length_nil]
      rw [List.range_succ]
    · intro c hc
      rcases List.mem_append.mp hc with hc | hc
      · exact h3 c hc
      · rw [List.mem_singleton] at hc
        subst hc
        rw [hs, he]
        exact hlt

/-- Helper: the chunk-loop invariant holds after folding over any
sentence list. -/
theorem foldl_chunkStep_inv (m o : Nat) (sentences : List Str)
    (st : ChunkState)
    (h1 : st.chunkIndex = st.chunks.length)
    (h2 : st.chunks.map (fun c => c.chunkIndex) = List.range st.chunks.length)
    (h3 : ∀ c ∈ st.chunks, c.startOffset < c.endOffset) :
    (sentences.foldl (chunkStep m o) st).chunkIndex =
      (sentences.foldl (chunkStep m o) st).chunks.length ∧
    (sentences.foldl (chunkStep m o) st).chunks.map (fun c => c.chunkIndex) =
      List.range (sentences.foldl (chunkStep m o) st).chunks.length ∧
    ∀ c ∈ (sentences.foldl (chunkStep m o) st).chunks,
      c.startOffset < c.endOffset := by
  induction sentences generalizing st with
  | nil => exact ⟨h1, h2, h3⟩
  | cons sentence rest ih =>
    obtain ⟨g1, g2, g3⟩ := chunkStep_inv m o st sentence h1 h2 h3
    exact ih (chunkStep m o st sentence) g1 g2 g3

/-- Helper: the final-chunk emission of `create_chunks` preserves the
chunk-loop invariant. -/
theorem finalChunks_inv (st : ChunkState)
    (g1 : st.chunkIndex = st.chunks.length)
    (g2 : st.chunks.map (fun c => c.chunkIndex) = List.range st.chunks.length)
    (g3 : ∀ c ∈ st.chunks, c.startOffset < c.endOffset) :
    (finalChunks st).map (fun c => c.chunkIndex) =
      List.range (finalChunks st).length ∧
    ∀ c ∈ finalChunks st, c.startOffset < c.endOffset := by
  unfold finalChunks
  split
  · split
    next ch hok =>
      obtain ⟨hidx, hs, he, hlt⟩ := documentChunk_new_ok hok
      constructor
      · rw [List.map_append, g2, List.length_append]
        simp only [List.map_cons, List.map_nil, hidx, g1,
          List.length_cons, List.length_nil]
        rw [List.range_succ]
      · intro c hc
        rcases List.mem_append.mp hc with hc | hc
        · exact g3 c hc
        · rw [List.mem_singleton] at hc
          subst hc
          rw [hs, he]
          exact hlt
    next => exact ⟨g2, g3⟩
  · exact ⟨g2, g3⟩

/-- Helper: every chunk list `create_chunks` returns successfully has
consecutive indices `0, …, count-1` in emission order and `start < end`
on every chunk. -/
theorem createChunks_ok_inv (m o : Nat) (content : Str)
    (cs : List DocumentChunk) (h : createChunks m o content = .ok cs) :
    cs.map (fun c => c.chunkIndex) = List.range cs.length ∧
    ∀ c ∈ cs, c.startOffset < c.endOffset := by
  unfold createChunks at h
  obtain ⟨g1, g2, g3⟩ := foldl_chunkStep_inv m o (splitIntoSentences content)
    ⟨[], 0, 0, [], 0⟩ rfl rfl (by intro c hc; cases hc)
  dsimp only at h
  split at h
  · cases h
  · cases h
    exact finalChunks_inv _ g1 g2 g3

/-- C9: a candidate chunk that fails validation in `create_chunks` is
skipped without incrementing the chunk index, so the `chunk_index`
values of every successfully returned chunk list are exactly
`0, 1, …, count-1` in emission order. -/
theorem createChunks_chunk_indices (m o : Nat) (content : Str)
    (cs : List DocumentChunk) (h : createChunks m o content = .ok cs) :
    cs.map (fun c => c.chunkIndex) = List.range cs.length :=
  (createChunks_ok_inv m o content cs h).1

/-- Witness for C9 on a text whose middle sentence candidates fail the
token-count validation and are silently dropped: the single surviving
chunk still carries index 0. -/
theorem createChunks_chunk_indices_witness :
    createChunks 10 2 skipSampleText = .ok skipSampleChunks ∧
    skipSampleChunks.map (fun c => c.chunkIndex) =
      List.range skipSampleChunks.length :=
  ⟨by decide, createChunks_chunk_indices 10 2 skipSampleText skipSampleChunks
    (by decide)⟩

end MineKB.Theorems

namespace MineKB.Theorems

open MineKB.DocModel MineKB.DocProcessor MineKB.Samples

/-- C5 (counterexample): on a 40-character text with no sentence
boundary, `create_chunks` (default settings) produces a single chunk
whose `end_offset` is 41 — exceeding the cleaned text's length of 40,
because the loop advances the offset by `sentence.len() + 1` for a
separator the text does not contain. -/
theorem createChunks_end_offset_overruns_counterexample :
    createChunks defaultMaxChunkSize defaultChunkOverlap aText =
      .ok [⟨0, aText, 10, 0, 41⟩] ∧
    aText.length = 40 ∧
    ∃ c ∈ [(⟨0, aText, 10, 0, 41⟩ : DocumentChunk)],
      aText.length < c.endOffset := by
  refine ⟨by decide, by decide, ⟨0, aText, 10, 0, 41⟩, by decide, by decide⟩

/-- C5 (amended): for every document whose chunking succeeds, every
produced chunk satisfies `0 ≤ start_offset < end_offset`, and the
`chunk_index` values of its chunks are exactly `0, 1, …, chunk_count-1`
with no duplicates; `end_offset`, however, may exceed the length of the
document's cleaned text (by up to one per appended sentence separator),
so the upper bound of the claim does not hold. -/
theorem createChunks_offsets_and_indices (m o : Nat) (content : Str)
    (cs : List DocumentChunk) (h : createChunks m o content = .ok cs) :
    (∀ c ∈ cs, c.startOffset < c.endOffset) ∧
    cs.map (fun c => c.chunkIndex) = List.range cs.length :=
  ⟨(createChunks_ok_inv m o content cs h).2,
   (createChunks_ok_inv m o content cs h).1⟩

/-- Witness for C5's amended theorem at the 40-character input. -/
theorem createChunks_offsets_and_indices_witness :
    (createChunks defaultMaxChunkSize defaultChunkOverlap aText =
      .ok aChunks) ∧
    (∀ c ∈ aChunks, c.startOffset < c.endOffset) ∧
    aChunks.map (fun c => c.chunkIndex) = List.range aChunks.length :=
  ⟨by decide,
   createChunks_offsets_and_indices defaultMaxChunkSize defaultChunkOverlap
     aText aChunks (by decide)⟩

end MineKB.Theorems

namespace MineKB.Theorems

open MineKB.Embedding MineKB.Samples

/-- Helper: with sufficient fuel, the chunks of a list flatten back to
the list. -/
theorem chunksOfAux_flatten {α : Type} (n : Nat) :
    ∀ (fuel : Nat) (xs : List α), xs.length ≤ fuel → 1 ≤ n →
      (chunksOfAux n fuel xs).flatten = xs := by
  intro fuel
  induction fuel with
  | zero =>
    intro xs hx _
    have hnil : xs = [] := List.eq_nil_of_length_eq_zero (Nat.le_antisymm hx (Nat.zero_le _))
    subst hnil
    rfl
  | succ fuel ih =>
    intro xs hx hn
    cases xs with
    | nil => rfl
    | cons x xs =>
      have step : chunksOfAux n (fuel + 1) (x :: xs) =
          List.take n (x :: xs) :: chunksOfAux n fuel (List.drop n (x :: xs)) := by
        rfl
      rw [step, List.flatten_cons, ih _ ?_ hn, List.take_append_drop]
      rw [List.length_drop]
      simp only [List.length_cons] at hx ⊢
      omega

/-- Helper: `chunks(n)` (for `n ≥ 1`) is a partition — flattening the
consecutive batches returns the original list. -/
theorem chunksOf_flatten {α : Type} (n : Nat) (hn : 1 ≤ n) (xs : List α) :
    (chunksOf n xs).flatten = xs :=
  chunksOfAux_flatten n xs.length xs le_rfl hn

/-- Helper: when the provider's items are a permutation of the texts'
enumeration, sorting them by `text_index` recovers the enumeration. -/
theorem sortByTextIndex_of_perm_enum (ys : List (List ℚ))
    (l : List (Nat × List ℚ)) (h : l.Perm ys.enum) :
    sortByTextIndex l = ys.enum := by
  have hperm : (sortByTextIndex l).Perm ys.enum :=
    (List.perm_insertionSort _ l).trans h
  haveI : IsTotal (Nat × List ℚ) (fun a b => a.1 ≤ b.1) :=
    ⟨fun a b => Nat.le_total a.1 b.1⟩
  haveI : IsTrans (Nat × List ℚ) (fun a b => a.1 ≤ b.1) :=
    ⟨fun _ _ _ hab hbc => le_trans hab hbc⟩
  have hsorted : (sortByTextIndex l).Pairwise (fun a b => a.1 ≤ b.1) :=
    List.sorted_insertionSort _ l
  have hnodup : ((sortByTextIndex l).map Prod.fst).Nodup := by
    have hp : ((sortByTextIndex l).map Prod.fst).Perm (ys.enum.map Prod.fst) :=
      hperm.map _
    rw [List.enum_map_fst] at hp
    exact hp.nodup_iff.mpr (List.nodup_range _)
  have hlt1 : (sortByTextIndex l).Pairwise (fun a b => a.1 < b.1) := by
    have hne : (sortByTextIndex l).Pairwise (fun a b => a.1 ≠ b.1) :=
      List.pairwise_map.mp hnodup
    exact (hsorted.and hne).imp (fun hab => lt_of_le_of_ne hab.1 hab.2)
  have hlt2 : ys.enum.Pairwise (fun a b => a.1 < b.1) := by
    have hr : (ys.enum.map Prod.fst).Pairwise (· < ·) := by
      rw [List.enum_map_fst]
      exact List.pairwise_lt_range _
    exact List.pairwise_map.mp hr
  haveI : IsAntisymm (Nat × List ℚ) (fun a b => a.1 < b.1) :=
    ⟨fun a b h1 h2 => absurd (lt_trans h1 h2) (lt_irrefl _)⟩
  exact List.eq_of_perm_of_sorted hperm hlt1 hlt2

/-- Helper: a single provider call, re-ordered by `text_index`, yields
one embedding per input text in input order. -/
theorem embedBatchInternal_eq (provider : List Str → List (Nat × List ℚ))
    (f : Str → List ℚ)
    (H : ∀ batch, (provider batch).Perm ((batch.map f).enum))
    (batch : List Str) :
    embedBatchInternal provider batch = batch.map f := by
  unfold embedBatchInternal
  rw [sortByTextIndex_of_perm_enum (batch.map f) _ (H batch),
    List.enum_map_snd]

/-- C8: when the provider returns, for each requested batch, exactly one
item per text tagged with its `text_index` (in any order),
`embed_batch` returns one vector per input text in input order; the
empty input returns the empty output; and inputs longer than 25 are
processed as consecutive batches of 25 whose per-batch results (ordered
by `text_index`) are concatenated in batch order. -/
theorem embedBatch_spec (provider : List Str → List (Nat × List ℚ))
    (f : Str → List ℚ)
    (H : ∀ batch, (provider batch).Perm ((batch.map f).enum))
    (texts : List Str) :
    embedBatch provider texts = texts.map f ∧
    embedBatch provider [] = [] ∧
    (25 < texts.length →
      embedBatch provider texts = embedBatchChunked provider texts 25) := by
  refine ⟨?_, rfl, ?_⟩
  · unfold embedBatch
    split
    next he => rw [he]; rfl
    next he =>
      split
      next hlen =>
        unfold embedBatchChunked
        rw [List.map_congr_left
          (fun chunk _ => embedBatchInternal_eq provider f H chunk)]
        rw [show (chunksOf 25 texts).map (fun chunk => chunk.map f) =
            (chunksOf 25 texts).map (List.map f) from rfl]
        rw [← List.map_flatten, chunksOf_flatten 25 (by omega) texts]
      next => exact embedBatchInternal_eq provider f H texts
  · intro hlen
    unfold embedBatch
    rw [if_neg (by intro he; rw [he] at hlen; simp at hlen), if_pos hlen]

/-- Witness for C8: a provider returning the tagged items in reversed
order still yields the embeddings in input order. -/
theorem embedBatch_spec_witness :
    embedBatch permProvider embedTexts = embedTexts.map lenEmbed ∧
    embedBatch permProvider [] = [] ∧
    (25 < embedTexts.length →
      embedBatch permProvider embedTexts =
        embedBatchChunked permProvider embedTexts 25) :=
  embedBatch_spec permProvider lenEmbed
    (fun batch => List.reverse_perm ((batch.map lenEmbed).enum)) embedTexts

end MineKB.Theorems

namespace MineKB.Theorems

open MineKB.LlmStream MineKB.ConvModel MineKB.Samples

/-- C6 (counterexample): a transport error is followed by a `Complete`
event — `handle_streaming_response` always yields `Complete(response_id)`
after its loop ends, including when the loop ended by emitting `Error`,
so events do follow the `Error`. -/
theorem streamError_then_complete_counterexample :
    handleStreamingResponse noParse [] [.error "x".toList] "r".toList =
      [.error "读取流式数据失败: x".toList, .complete "r".toList] ∧
    (handleStreamingResponse noParse [] [.error "x".toList]
        "r".toList).get? 0 =
      some (.error "读取流式数据失败: x".toList) ∧
    (handleStreamingResponse noParse [] [.error "x".toList]
        "r".toList).get? 1 =
      some (.complete "r".toList) := by
  refine ⟨by decide, by decide, by decide⟩

/-- Helper: a single processed line yields `Token` events only. -/
theorem lineOutcome_tokens (parse : Str → Option SseResponse) (line : Str) :
    ∀ e ∈ (lineOutcome parse line).1, ∃ s, e = .token s := by
  intro e he
  unfold lineOutcome at he
  dsimp only at he
  split at he
  · cases he
  · split at he
    · split at he
      · cases he
      · split at he
        · split at he
          · dsimp only at he
            split at he
            next content _ =>
              split at he
              · rw [List.mem_singleton] at he
                exact ⟨content, he⟩
              · cases he
            next => cases he
          · cases he
        · cases he
    · cases he

/-- Helper: the inner line loop yields `Token` events only. -/
theorem processLines_tokens (parse : Str → Option SseResponse)
    (fuel : Nat) :
    ∀ (buffer : Str), ∀ e ∈ (processLines parse fuel buffer).1,
      ∃ s, e = .token s := by
  induction fuel with
  | zero => intro buffer e he; cases he
  | succ fuel ih =>
    intro buffer e he
    unfold processLines at he
    split at he
    · cases he
    · dsimp only at he
      split at he
      · exact lineOutcome_tokens parse _ e he
      · rcases List.mem_append.mp he with he | he
        · exact lineOutcome_tokens parse _ e he
        · exact ih _ e he

/-- Helper: the outer stream loop yields only `Token` events plus, when
(and only when) a transport error chunk is reached, a single `Error` as
its very last event. -/
theorem streamLoop_structure (parse : Str → Option SseResponse)
    (chunks : List (Except Str Str)) :
    ∀ (buffer : Str),
      (∀ e ∈ streamLoop parse buffer chunks,
        (∃ s, e = .token s) ∨ ∃ d, e = .error d) ∧
      (∀ i d, (streamLoop parse buffer chunks).get? i =
          some (.error d) →
        i + 1 = (streamLoop parse buffer chunks).length ∧
        ∃ m, Except.error m ∈ chunks) := by
  induction chunks with
  | nil =>
    intro buffer
    exact ⟨fun e he => absurd he (List.not_mem_nil e),
      fun i d h => by cases i <;> cases h⟩
  | cons c rest ih =>
    intro buffer
    cases c with
    | ok s =>
      have hsl : streamLoop parse buffer (.ok s :: rest) =
          (processLines parse ((buffer ++ s).length + 1) (buffer ++ s)).1 ++
          streamLoop parse
            (processLines parse ((buffer ++ s).length + 1) (buffer ++ s)).2
            rest := rfl
      rw [hsl]
      constructor
      · intro e he
        rcases List.mem_append.mp he with he | he
        · obtain ⟨t, ht⟩ := processLines_tokens parse _ _ e he
          exact .inl ⟨t, ht⟩
        · rcases ((ih _).1 e he) with h | h
          · exact .inl h
          · exact .inr h
      · intro i d hget
        set pl := processLines parse ((buffer ++ s).length + 1) (buffer ++ s)
          with hpl
        by_cases hi : i < pl.1.length
        · rw [List.get?_append hi] at hget
          obtain ⟨t, ht⟩ := processLines_tokens parse _ _ _
            (List.get?_mem hget)
          cases ht
        · push_neg at hi
          rw [List.get?_append_right hi] at hget
          obtain ⟨hlast, m, hm⟩ := (ih _).2 _ d hget
          constructor
          · rw [List.length_append]
            omega
          · exact ⟨m, List.mem_cons_of_mem _ hm⟩
    | error e =>
      have hsl2 : streamLoop parse buffer (.error e :: rest) =
          [StreamEvent.error ("读取流式数据失败: ".toList ++ e)] := rfl
      rw [hsl2]
      constructor
      · intro ev hev
        rw [List.mem_singleton] at hev
        exact .inr ⟨_, hev⟩
      · intro i d hget
        obtain ⟨hlt, _⟩ := List.get?_eq_some.mp hget
        refine ⟨by simp only [List.length_singleton] at hlt ⊢; omega, e, List.mem_cons_self _ _⟩

/-- C6 (amended): while consuming the LLM streaming response, exactly
one `Complete(response_id)` event is emitted and it is always the final
event — it follows the natural end of the byte stream whether or not
`finish_reason ∈ {stop, length}` or the `data: [DONE]` terminator was
seen (those only stop line processing), and it follows even a transport
`Error`; an `Error(detail)` event implies a transport error chunk
(parse errors are skipped and emit nothing), aborts reading, and is
immediately followed by the final `Complete` — in particular no `Token`
event follows an `Error`. -/
theorem handleStreamingResponse_event_shape
    (parse : Str → Option SseResponse) (contextChunks : List ContextChunk)
    (chunks : List (Except Str Str)) (responseId : Str) :
    ∃ body,
      handleStreamingResponse parse contextChunks chunks responseId =
        body ++ [.complete responseId] ∧
      (∀ s, StreamEvent.complete s ∉ body) ∧
      (∀ i d, body.get? i = some (.error d) →
        i + 1 = body.length ∧ ∃ m, Except.error m ∈ chunks) := by
  refine ⟨(if contextChunks ≠ [] then
      [StreamEvent.context contextChunks] else []) ++
      streamLoop parse [] chunks, ?_, ?_, ?_⟩
  · unfold handleStreamingResponse
    rw [List.append_assoc]
  · intro s hs
    rcases List.mem_append.mp hs with hs | hs
    · split at hs
      · rw [List.mem_singleton] at hs
        cases hs
      · cases hs
    · rcases (streamLoop_structure parse chunks []).1
        (StreamEvent.complete s) hs with ⟨t, ht⟩ | ⟨d, hd⟩
      · cases ht
      · cases hd
  · intro i d hget
    set ctxPart := (if contextChunks ≠ [] then
      [StreamEvent.context contextChunks] else []) with hctx
    by_cases hi : i < ctxPart.length
    · rw [List.get?_append hi] at hget
      have hmem := List.get?_mem hget
      rw [hctx] at hmem
      split at hmem
      · rw [List.mem_singleton] at hmem
        cases hmem
      · cases hmem
    · push_neg at hi
      rw [List.get?_append_right hi] at hget
      obtain ⟨hlast, m, hm⟩ :=
        (streamLoop_structure parse chunks []).2 _ d hget
      constructor
      · rw [List.length_append]
        omega
      · exact ⟨m, hm⟩

end MineKB.Theorems

namespace MineKB.Theorems

open MineKB.ConvService

/-- Helper: lookup through a cons cell. -/
theorem alookup_cons {α : Type} (p : Nat × α) (l : List (Nat × α)) (k : Nat) :
    alookup (p :: l) k = if p.1 = k then some p.2 else alookup l k := by
  by_cases h : p.1 = k
  · rw [if_pos h]
    unfold alookup
    rw [List.find?_cons_of_pos _ (by simp [h])]
    rfl
  · rw [if_neg h]
    unfold alookup
    rw [List.find?_cons_of_neg _ (by simp [h])]

/-- Helper: a found key is in the list (`any` is true). -/
theorem alookup_some_any {α : Type} (l : List (Nat × α)) (k : Nat) (v : α)
    (h : alookup l k = some v) : l.any (fun p => p.1 = k) = true := by
  induction l with
  | nil => cases h
  | cons p l ih =>
    rw [alookup_cons] at h
    rw [List.any_cons]
    split at h
    next hp => simp [hp]
    next hp => simp [ih h]

/-- Helper: updating a present key makes it look up to the new value. -/
theorem alookup_aupdate_self {α : Type} (l : List (Nat × α)) (k : Nat) (v : α)
    (h : l.any (fun p => p.1 = k) = true) :
    alookup (aupdate l k v) k = some v := by
  induction l with
  | nil => cases h
  | cons p l ih =>
    rw [List.any_cons] at h
    unfold aupdate
    rw [List.map_cons]
    by_cases hp : p.1 = k
    · rw [if_pos hp, alookup_cons]
      simp
    · rw [if_neg hp, alookup_cons, if_neg hp]
      apply ih
      simpa [hp] using h

/-- Helper: updating one key leaves other lookups unchanged. -/
theorem alookup_aupdate_ne {α : Type} (l : List (Nat × α)) (k : Nat) (v : α)
    (k' : Nat) (h : k' ≠ k) :
    alookup (aupdate l k v) k' = alookup l k' := by
  induction l with
  | nil => rfl
  | cons p l ih =>
    unfold aupdate
    rw [List.map_cons]
    by_cases hp : p.1 = k
    · rw [if_pos hp, alookup_cons, alookup_cons,
        if_neg (fun hk => h hk.symm), if_neg (by rw [hp]; exact fun hk => h hk.symm)]
      exact ih
    · rw [if_neg hp, alookup_cons, alookup_cons]
      by_cases hq : p.1 = k'
      · rw [if_pos hq, if_pos hq]
      · rw [if_neg hq, if_neg hq]
        exact ih

/-- Helper: appending an absent key makes it look up to the new value. -/
theorem alookup_append_self {α : Type} (l : List (Nat × α)) (k : Nat) (v : α)
    (h : l.any (fun p => p.1 = k) = false) :
    alookup (l ++ [(k, v)]) k = some v := by
  induction l with
  | nil => rw [List.nil_append, alookup_cons, if_pos rfl]
  | cons p l ih =>
    rw [List.any_cons, Bool.or_eq_false_iff] at h
    rw [List.cons_append, alookup_cons,
      if_neg (decide_eq_false_iff_not.mp h.1)]
    exact ih h.2

/-- Helper: appending a new key leaves other lookups unchanged. -/
theorem alookup_append_ne {α : Type} (l : List (Nat × α)) (k : Nat) (v : α)
    (k' : Nat) (h : k' ≠ k) :
    alookup (l ++ [(k, v)]) k' = alookup l k' := by
  induction l with
  | nil =>
    rw [List.nil_append, alookup_cons, if_neg (fun hk => h hk.symm)]
  | cons p l ih =>
    rw [List.cons_append, alookup_cons, alookup_cons]
    by_cases hq : p.1 = k'
    · rw [if_pos hq, if_pos hq]
    · rw [if_neg hq, if_neg hq]
      exact ih

/-- Helper: after an upsert the key looks up to the new value. -/
theorem alookup_aupsert_self {α : Type} (l : List (Nat × α)) (k : Nat) (v : α) :
    alookup (aupsert l k v) k = some v := by
  unfold aupsert
  split
  next h => exact alookup_aupdate_self l k v h
  next h => exact alookup_append_self l k v (Bool.eq_false_iff.mpr h)

/-- Helper: an upsert leaves other lookups unchanged. -/
theorem alookup_aupsert_ne {α : Type} (l : List (Nat × α)) (k : Nat) (v : α)
    (k' : Nat) (h : k' ≠ k) :
    alookup (aupsert l k v) k' = alookup l k' := by
  unfold aupsert
  split
  · exact alookup_aupdate_ne l k v k' h
  · exact alookup_append_ne l k v k' h

/-- Helper: `any` over a key is false exactly when the key is absent. -/
theorem any_key_eq_false {α : Type} (l : List (Nat × α)) (k : Nat)
    (h : k ∉ l.map Prod.fst) : l.any (fun p => p.1 = k) = false := by
  induction l with
  | nil => rfl
  | cons p l ih =>
    rw [List.map_cons, List.mem_cons] at h
    push_neg at h
    rw [List.any_cons]
    simp only [Bool.or_eq_false_iff]
    exact ⟨decide_eq_false_iff_not.mpr (fun hk => h.1 hk.symm), ih h.2⟩

/-- Helper: with unique keys, two list members sharing a key are equal. -/
theorem nodup_key_eq {α : Type} (l : List (Nat × α))
    (hnd : (l.map Prod.fst).Nodup) (a b : Nat × α)
    (ha : a ∈ l) (hb : b ∈ l) (hk : a.1 = b.1) : a = b := by
  induction l with
  | nil => cases ha
  | cons p l ih =>
    rw [List.map_cons, List.nodup_cons] at hnd
    rcases List.mem_cons.mp ha with ha | ha <;>
      rcases List.mem_cons.mp hb with hb | hb
    · rw [ha, hb]
    · exfalso
      apply hnd.1
      rw [← ha, hk]
      exact List.mem_map_of_mem Prod.fst hb
    · exfalso
      apply hnd.1
      rw [← hb, ← hk]
      exact List.mem_map_of_mem Prod.fst ha
    · exact ih hnd.2 ha hb

/-- Helper: filtering on the key commutes with projecting the key. -/
theorem map_fst_filter_key (l : List (Nat × Nat)) (mid : Nat) :
    (l.filter (fun p => ¬ p.1 = mid)).map Prod.fst =
      (l.map Prod.fst).filter (fun x => ¬ x = mid) := by
  induction l with
  | nil => rfl
  | cons p l ih =>
    rw [List.filter_cons, List.map_cons, List.filter_cons]
    by_cases hp : p.1 = mid
    · rw [if_neg (by simp [hp]), if_neg (by simp [hp])]
      exact ih
    · rw [if_pos (by simp [hp]), if_pos (by simp [hp]), List.map_cons, ih]

end MineKB.Theorems

namespace MineKB.Theorems

open MineKB.ConvService MineKB.Samples

/-- Helper: inserting a message row extends its conversation's load. -/
theorem load_append_same (db : List (Nat × Nat)) (conv id : Nat) :
    loadMessagesByConversation (db ++ [(id, conv)]) conv =
      loadMessagesByConversation db conv ++ [(id, conv)] := by
  unfold loadMessagesByConversation
  rw [List.filter_append]
  congr 1
  simp [List.filter_cons]

/-- Helper: inserting a message row leaves other conversations' loads
unchanged. -/
theorem load_append_other (db : List (Nat × Nat)) (conv' id conv : Nat)
    (h : conv' ≠ conv) :
    loadMessagesByConversation (db ++ [(id, conv)]) conv' =
      loadMessagesByConversation db conv' := by
  unfold loadMessagesByConversation
  rw [List.filter_append]
  have hnil : [(id, conv)].filter (fun p => p.2 = conv') = [] := by
    simp [List.filter_cons, Ne.symm h]
  rw [hnil, List.append_nil]

/-- Helper: deleting by message id commutes with loading a
conversation. -/
theorem load_filter_not_key (db : List (Nat × Nat)) (conv mid : Nat) :
    loadMessagesByConversation (db.filter (fun p => ¬ p.1 = mid)) conv =
      (loadMessagesByConversation db conv).filter (fun p => ¬ p.1 = mid) := by
  unfold loadMessagesByConversation
  rw [List.filter_filter, List.filter_filter]
  apply List.filter_congr
  intro a _
  rw [Bool.and_comm]

/-- Helper: after clearing a conversation its load is empty. -/
theorem load_clear_same (db : List (Nat × Nat)) (conv : Nat) :
    loadMessagesByConversation (db.filter (fun p => ¬ p.2 = conv)) conv =
      [] := by
  unfold loadMessagesByConversation
  rw [List.filter_filter]
  apply List.filter_eq_nil.mpr
  intro a _
  simp

/-- Helper: clearing one conversation leaves other conversations' loads
unchanged. -/
theorem load_clear_other (db : List (Nat × Nat)) (conv conv' : Nat)
    (h : conv' ≠ conv) :
    loadMessagesByConversation (db.filter (fun p => ¬ p.2 = conv)) conv' =
      loadMessagesByConversation db conv' := by
  unfold loadMessagesByConversation
  rw [List.filter_filter]
  apply List.filter_congr
  intro a _
  by_cases ha : a.2 = conv'
  · simp [ha, h]
  · simp [ha]

/-- C2: from any consistent state, each successful message write —
adding a message (with a fresh id), deleting a message, or clearing all
messages — preserves consistency, and afterwards the persisted
conversation row's `message_count` equals the number of rows
`load_messages_by_conversation` returns for that conversation. -/
theorem conversationService_message_count
    (s : ConvState) (op : WriteOp) (s' : ConvState)
    (hInv : Inv s) (hFresh : freshFor s op)
    (hOk : applyWrite s op = some s') :
    Inv s' ∧
    alookup s'.dbConversations op.conv =
      some ((loadMessagesByConversation s'.dbMessages op.conv).length) := by
  obtain ⟨hnd, hcons⟩ := hInv
  cases op with
  | addMessage conv newId =>
    replace hOk : addMessage s conv newId = some s' := hOk
    unfold addMessage at hOk
    cases hmc : alookup s.memConversations conv with
    | none => rw [hmc] at hOk; cases hOk
    | some count =>
      rw [hmc] at hOk
      dsimp only at hOk
      cases hOk
      obtain ⟨hdbc, hmm, hcnt⟩ := hcons conv count hmc
      have hfresh' : newId ∉ s.dbMessages.map Prod.fst := hFresh
      have hanyf : s.dbMessages.any (fun p => p.1 = newId) = false :=
        any_key_eq_false s.dbMessages newId hfresh'
      have hsave : saveMessage s.dbMessages newId conv =
          s.dbMessages ++ [(newId, conv)] := by
        unfold saveMessage
        rw [if_neg (by simp [hanyf])]
      have hload : loadMessagesByConversation
          (saveMessage s.dbMessages newId conv) conv =
          loadMessagesByConversation s.dbMessages conv ++ [(newId, conv)] := by
        rw [hsave, load_append_same]
      refine ⟨⟨?_, ?_⟩, ?_⟩
      · show ((saveMessage s.dbMessages newId conv).map Prod.fst).Nodup
        rw [hsave, List.map_append]
        refine ((List.perm_append_singleton _ _).nodup_iff).mpr ?_
        exact List.nodup_cons.mpr ⟨hfresh', hnd⟩
      · intro conv' count' hm'
        by_cases hcc : conv' = conv
        · subst hcc
          rw [alookup_aupdate_self _ _ _
            (alookup_some_any _ _ _ hmc)] at hm'
          cases hm'
          refine ⟨?_, ?_, ?_⟩
          · exact alookup_aupsert_self _ _ _
          · show (alookup (aupsert s.memMessages conv' _) conv').getD [] = _
            rw [alookup_aupsert_self]
            show _ = (loadMessagesByConversation
              (saveMessage s.dbMessages newId conv') conv').map Prod.fst
            rw [hload, List.map_append, ← hmm]
            rfl
          · show count + 1 =
              ((alookup (aupsert s.memMessages conv' _) conv').getD []).length
            rw [alookup_aupsert_self]
            show count + 1 =
              ((alookup s.memMessages conv').getD [] ++ [newId]).length
            rw [List.length_append, hcnt]
            rfl
        · rw [alookup_aupdate_ne _ _ _ _ hcc] at hm'
          obtain ⟨g1, g2, g3⟩ := hcons conv' count' hm'
          refine ⟨?_, ?_, ?_⟩
          · show alookup (saveConversationRow s.dbConversations conv _)
              conv' = some count'
            unfold saveConversationRow
            rw [alookup_aupsert_ne _ _ _ _ hcc]
            exact g1
          · show (alookup (aupsert s.memMessages conv _) conv').getD [] = _
            rw [alookup_aupsert_ne _ _ _ _ hcc]
            show _ = (loadMessagesByConversation
              (saveMessage s.dbMessages newId conv) conv').map Prod.fst
            rw [hsave, load_append_other _ _ _ _ hcc]
            exact g2
          · show count' =
              ((alookup (aupsert s.memMessages conv _) conv').getD []).length
            rw [alookup_aupsert_ne _ _ _ _ hcc]
            exact g3
      · show alookup (saveConversationRow s.dbConversations conv (count + 1))
          conv = some ((loadMessagesByConversation
            (saveMessage s.dbMessages newId conv) conv).length)
        unfold saveConversationRow
        rw [alookup_aupsert_self]
        have hlen : count =
            (loadMessagesByConversation s.dbMessages conv).length := by
          rw [hcnt, hmm, List.length_map]
        rw [hload, hlen]
        simp [List.length_append]
  | deleteMessage conv mid =>
    replace hOk : deleteMessage s conv mid = some s' := hOk
    unfold deleteMessage at hOk
    cases hmc : alookup s.memConversations conv with
    | none => rw [hmc] at hOk; cases hOk
    | some count =>
      rw [hmc] at hOk
      dsimp only at hOk
      split at hOk
      · cases hOk
      next hne =>
        cases hOk
        obtain ⟨hdbc, hmm, hcnt⟩ := hcons conv count hmc
        -- the deleted id is one of the conversation's persisted rows
        have hmem : mid ∈ (alookup s.memMessages conv).getD [] := by
          by_contra hno
          apply hne
          apply congrArg List.length
          apply List.filter_eq_self.mpr
          intro a ha
          rw [decide_eq_true_eq]
          intro hk
          exact hno (hk ▸ ha)
        have hrow : ∃ row ∈ s.dbMessages, row.1 = mid ∧ row.2 = conv := by
          rw [hmm] at hmem
          obtain ⟨row, hrmem, hrfst⟩ := List.mem_map.mp hmem
          unfold loadMessagesByConversation at hrmem
          have := List.of_mem_filter hrmem
          exact ⟨row, List.mem_of_mem_filter hrmem, hrfst,
            by simpa using this⟩
        refine ⟨⟨?_, ?_⟩, ?_⟩
        · show ((s.dbMessages.filter (fun p => ¬ p.1 = mid)).map
            Prod.fst).Nodup
          exact hnd.sublist ((List.filter_sublist _).map Prod.fst)
        · intro conv' count' hm'
          by_cases hcc : conv' = conv
          · subst hcc
            rw [alookup_aupdate_self _ _ _
              (alookup_some_any _ _ _ hmc)] at hm'
            cases hm'
            refine ⟨alookup_aupsert_self _ _ _, ?_, ?_⟩
            · show (alookup (aupsert s.memMessages conv' _) conv').getD [] = _
              rw [alookup_aupsert_self]
              show ((alookup s.memMessages conv').getD []).filter
                  (fun m => ¬ m = mid) = _
              rw [hmm]
              show _ = (loadMessagesByConversation
                (deleteMessageById s.dbMessages mid) conv').map Prod.fst
              unfold deleteMessageById
              rw [load_filter_not_key, map_fst_filter_key]
            · show _ = ((alookup (aupsert s.memMessages conv' _) conv').getD []).length
              rw [alookup_aupsert_self]
              rfl
          · rw [alookup_aupdate_ne _ _ _ _ hcc] at hm'
            obtain ⟨g1, g2, g3⟩ := hcons conv' count' hm'
            refine ⟨?_, ?_, ?_⟩
            · show alookup (saveConversationRow s.dbConversations conv _)
                conv' = some count'
              unfold saveConversationRow
              rw [alookup_aupsert_ne _ _ _ _ hcc]
              exact g1
            · show (alookup (aupsert s.memMessages conv _) conv').getD [] = _
              rw [alookup_aupsert_ne _ _ _ _ hcc, g2]
              show _ = (loadMessagesByConversation
                (deleteMessageById s.dbMessages mid) conv').map Prod.fst
              unfold deleteMessageById
              rw [load_filter_not_key]
              have hkeep : (loadMessagesByConversation s.dbMessages conv').filter
                  (fun p => ¬ p.1 = mid) =
                  loadMessagesByConversation s.dbMessages conv' := by
                apply List.filter_eq_self.mpr
                intro row hrmem2
                obtain ⟨prow, hpmem, hpfst, hpsnd⟩ := hrow
                simp only [decide_eq_true_eq, decide_not]
                have hrdb : row ∈ s.dbMessages :=
                  List.mem_of_mem_filter hrmem2
                have hrconv : row.2 = conv' := by
                  simpa using List.of_mem_filter hrmem2
                simp only [Bool.not_eq_true', decide_eq_false_iff_not]
                intro hk
                have : row = prow := nodup_key_eq s.dbMessages hnd row prow
                  hrdb hpmem (by rw [hk, hpfst])
                exact hcc (by rw [← hrconv, this, hpsnd])
              rw [hkeep]
            · show count' =
                ((alookup (aupsert s.memMessages conv _) conv').getD []).length
              rw [alookup_aupsert_ne _ _ _ _ hcc]
              exact g3
        · show alookup (saveConversationRow s.dbConversations conv _) conv = _
          unfold saveConversationRow
          rw [alookup_aupsert_self]
          congr 1
          show (((alookup s.memMessages conv).getD []).filter
            (fun m => ¬ m = mid)).length = _
          rw [hmm, ← map_fst_filter_key]
          show _ = (loadMessagesByConversation
            (deleteMessageById s.dbMessages mid) conv).length
          unfold deleteMessageById
          rw [load_filter_not_key, List.length_map]
  | clearMessages conv =>
    replace hOk : clearMessages s conv = some s' := hOk
    unfold clearMessages at hOk
    cases hmc : alookup s.memConversations conv with
    | none => rw [hmc] at hOk; cases hOk
    | some count =>
      rw [hmc] at hOk
      dsimp only at hOk
      cases hOk
      refine ⟨⟨?_, ?_⟩, ?_⟩
      · show ((s.dbMessages.filter (fun p => ¬ p.2 = conv)).map
          Prod.fst).Nodup
        exact hnd.sublist ((List.filter_sublist _).map Prod.fst)
      · intro conv' count' hm'
        by_cases hcc : conv' = conv
        · subst hcc
          rw [alookup_aupdate_self _ _ _
            (alookup_some_any _ _ _ hmc)] at hm'
          cases hm'
          refine ⟨alookup_aupsert_self _ _ _, ?_, ?_⟩
          · show (alookup (aupsert s.memMessages conv' []) conv').getD [] = _
            rw [alookup_aupsert_self]
            show _ = (loadMessagesByConversation
              (deleteMessagesByConversation s.dbMessages conv') conv').map
                Prod.fst
            unfold deleteMessagesByConversation
            rw [load_clear_same]
            rfl
          · show (0 : Nat) =
              ((alookup (aupsert s.memMessages conv' []) conv').getD []).length
            rw [alookup_aupsert_self]
            rfl
        · rw [alookup_aupdate_ne _ _ _ _ hcc] at hm'
          obtain ⟨g1, g2, g3⟩ := hcons conv' count' hm'
          refine ⟨?_, ?_, ?_⟩
          · show alookup (saveConversationRow s.dbConversations conv 0)
              conv' = some count'
            unfold saveConversationRow
            rw [alookup_aupsert_ne _ _ _ _ hcc]
            exact g1
          · show (alookup (aupsert s.memMessages conv []) conv').getD [] = _
            rw [alookup_aupsert_ne _ _ _ _ hcc, g2]
            show _ = (loadMessagesByConversation
              (deleteMessagesByConversation s.dbMessages conv) conv').map
                Prod.fst
            unfold deleteMessagesByConversation
            rw [load_clear_other _ _ _ hcc]
          · show count' =
              ((alookup (aupsert s.memMessages conv []) conv').getD []).length
            rw [alookup_aupsert_ne _ _ _ _ hcc]
            exact g3
      · show alookup (saveConversationRow s.dbConversations conv 0) conv = _
        unfold saveConversationRow
        rw [alookup_aupsert_self]
        show _ = some ((loadMessagesByConversation
          (deleteMessagesByConversation s.dbMessages conv) conv).length)
        unfold deleteMessagesByConversation
        rw [load_clear_same]
        rfl

end MineKB.Theorems

namespace MineKB.Theorems

open MineKB.ConvService MineKB.Samples

/-- Helper: the sample state is consistent. -/
theorem inv_convState : Inv convState := by
  refine ⟨by decide, ?_⟩
  intro conv count h
  rw [show convState.memConversations = [(10, 1)] from rfl,
    alookup_cons] at h
  split at h
  next h10 =>
    cases h
    cases h10
    exact ⟨by decide, by decide, by decide⟩
  next => cases h

/-- Witness for C2: adding message 2 to conversation 10 of the sample
state yields a consistent state whose persisted row count, 2, equals the
number of loaded rows. -/
theorem conversationService_message_count_witness :
    Inv convStateAfter ∧
    alookup convStateAfter.dbConversations
        (WriteOp.addMessage 10 2).conv =
      some ((loadMessagesByConversation convStateAfter.dbMessages
        (WriteOp.addMessage 10 2).conv).length) :=
  conversationService_message_count convState (.addMessage 10 2)
    convStateAfter inv_convState (by unfold freshFor; decide) (by decide)

end MineKB.Theorems
